import Mathlib

/-!
Verification of the Solstrale path-tracing renderer against its
natural-language specification.

The development shallowly embeds the Rust sources:

* `FModel` — an exact model of IEEE `f64` scalars as rationals extended
  with `nan` and the two infinities.  It embeds the shader's color
  sanitizer (`renderer/shader.rs`) and the light-container probability
  density (`pdf.rs`), the two places where NaN propagation matters.
* `RendererM` — the renderer construction path (`renderer/mod.rs`):
  light collection over the scene's hittable tree, the
  "at least one light" check in `Renderer::new`, and the flag that
  guards the albedo/normal auxiliary buffers in `Renderer::render`.
* `BvhM` — the bounding-volume-hierarchy component
  (`hittable/bvh.rs`, `hittable/hittable_list.rs`, `util/interval.rs`,
  the `Aabb` of `geo/mod.rs`).  Machine floats are modeled as rationals
  extended with the two infinities (`WithBot (WithTop ℚ)`): the
  component only uses comparisons, `min`/`max`, and arithmetic on
  finite values, all of which are exact in `f64` up to rounding of the
  centroid arithmetic, so every definition stays executable.
* `SphereM` — the sphere intersection routine (`hittable/sphere.rs`)
  and the probability density functions (`pdf.rs`) over the real
  numbers, since the closed-form quadratic solve needs square roots.
-/

namespace FModel

/-- Model of an IEEE `f64` value: NaN, one of the two infinities, or a
finite value represented exactly as a rational (rounding of finite
arithmetic is elided). -/
inductive FVal where
  | nan : FVal
  | negInf : FVal
  | posInf : FVal
  | val : ℚ → FVal
deriving DecidableEq

/-- `f64::is_nan`. -/
def FVal.isNan : FVal → Bool
  | .nan => true
  | _ => false

/-- Numeric order on non-NaN values (`-inf < finite < inf`); the NaN
cases are never consulted by the embedded code, which tests `is_nan`
first. -/
def FVal.fle : FVal → FVal → Bool
  | .nan, _ => false
  | _, .nan => false
  | .negInf, _ => true
  | _, .negInf => false
  | _, .posInf => true
  | .posInf, _ => false
  | .val a, .val b => a ≤ b

/-- Rust `f64::min`: if `self` is NaN the other operand is returned,
and symmetrically; otherwise the numeric minimum. -/
def FVal.fmin (a b : FVal) : FVal :=
  match a, b with
  | .nan, y => y
  | x, .nan => x
  | x, y => if FVal.fle x y then x else y

/-- IEEE addition on the model (finite addition is exact; `inf + (-inf)`
is NaN). -/
def FVal.fadd : FVal → FVal → FVal
  | .nan, _ => .nan
  | _, .nan => .nan
  | .posInf, .negInf => .nan
  | .negInf, .posInf => .nan
  | .posInf, _ => .posInf
  | _, .posInf => .posInf
  | .negInf, _ => .negInf
  | _, .negInf => .negInf
  | .val a, .val b => .val (a + b)

/-- IEEE division on the model; the case the claims exercise is
`0.0 / 0.0 = NaN`. -/
def FVal.fdiv : FVal → FVal → FVal
  | .nan, _ => .nan
  | _, .nan => .nan
  | .posInf, .posInf => .nan
  | .posInf, .negInf => .nan
  | .negInf, .posInf => .nan
  | .negInf, .negInf => .nan
  | .posInf, .val b => if 0 ≤ b then .posInf else .negInf
  | .negInf, .val b => if 0 ≤ b then .negInf else .posInf
  | .val _, .posInf => .val 0
  | .val _, .negInf => .val 0
  | .val a, .val b =>
    if b = 0 then
      if a = 0 then .nan else if 0 < a then .posInf else .negInf
    else .val (a / b)

/-- Sum of an iterator of `f64`, which Rust folds with `+` from `0.0`. -/
def fsum (l : List FVal) : FVal :=
  l.foldl FVal.fadd (.val 0)

/-- A color as three `f64` channels (`geo/vec3.rs` `Vec3` used as RGB). -/
structure Color where
  x : FVal
  y : FVal
  z : FVal
deriving DecidableEq

/-- Channel-wise color addition (`Vec3: Add`). -/
def Color.add (a b : Color) : Color :=
  ⟨FVal.fadd a.x b.x, FVal.fadd a.y b.y, FVal.fadd a.z b.z⟩

/-- `renderer/shader.rs::filter_color_value`: NaN is replaced by zero,
anything else is clamped to the fixed ceiling `3.0` by `f64::min`. -/
def filter_color_value (v : FVal) : FVal :=
  if v.isNan then .val 0 else FVal.fmin v (.val 3)

/-- `renderer/shader.rs::filter_invalid_color_values`: the channel-wise
sanitizer. -/
def filter_invalid_color_values (col : Color) : Color :=
  ⟨filter_color_value col.x, filter_color_value col.y, filter_color_value col.z⟩

/-- The color produced by the `ScatterPdf` branch of
`PathTracingShader::shade` (`renderer/shader.rs` line 110): the
emitted color plus the scatter contribution, passed through the
sanitizer before being returned.  The two summands are taken as inputs;
their recursive computation is not needed by the sanitization claim. -/
def pdfScatterBranchColor (emitted scatterColor : Color) : Color :=
  filter_invalid_color_values (emitted.add scatterColor)

/-- What sanitization promises for one channel: the output is not NaN
and does not exceed the ceiling, a NaN input becomes zero, and an
in-range input passes through unchanged. -/
def Sanitized (input output : FVal) : Prop :=
  output.isNan = false ∧
  FVal.fle output (.val 3) = true ∧
  (input.isNan = true → output = .val 0) ∧
  (input.isNan = false → FVal.fle input (.val 3) = true → output = input)

/-- A light source as consulted by `ContainerPdf::value` (`pdf.rs`):
the enum-dispatched `Hittables::pdf_value` of one emissive object is
modeled by its density function into the `f64` model.  The geometric
density formulas themselves are embedded over the reals in `SphereM`;
here only the NaN-propagating sum/length arithmetic of the container is
at stake, for which the per-object densities are opaque. -/
structure LightF where
  density : ℚ × ℚ × ℚ → ℚ × ℚ × ℚ → FVal

/-- `pdf.rs::ContainerPdf::value`: the per-light densities are summed
and divided by the length of the objects slice, with no guard against
an empty slice. -/
def containerPdfValueF (objects : List LightF) (origin direction : ℚ × ℚ × ℚ) : FVal :=
  FVal.fdiv (fsum (objects.map (fun i => i.density origin direction))) (.val objects.length)

end FModel

namespace RendererM

/-- `material/mod.rs::Materials`: the closed material enum.  The claims
about renderer construction only consult the variant (for `is_light`),
so the per-variant texture and scalar parameters are not carried. -/
inductive Materials where
  | lambertian : Materials
  | metal : Materials
  | dielectric : Materials
  | diffuseLight : Materials
  | isotropic : Materials
  | blend : Materials
deriving DecidableEq

/-- `material/mod.rs::Material::is_light`: the trait default is `false`
and only `DiffuseLight` overrides it to `true`. -/
def Materials.is_light : Materials → Bool
  | .diffuseLight => true
  | _ => false

/-- The hittable tree as traversed by `get_lights`: primitive leaves
(`Sphere`, `Quad`, `Triangle`) report themselves exactly when their
material is a light, `ConstantMedium` reports nothing, and the list
container concatenates its children's lights (`hittable/sphere.rs`,
`hittable/quad.rs`, `hittable/triangle.rs`, `hittable/constant_medium.rs`,
`hittable/hittable_list.rs`). -/
inductive HittablesW where
  | sphere : Materials → HittablesW
  | quad : Materials → HittablesW
  | triangle : Materials → HittablesW
  | constantMedium : HittablesW
  | hittableList : List HittablesW → HittablesW

mutual

/-- `Hittable::get_lights` over the tree model; the list container
appends each child's lights in order (`HittableList::get_lights`). -/
def HittablesW.get_lights : HittablesW → List HittablesW
  | .sphere m => if m.is_light then [.sphere m] else []
  | .quad m => if m.is_light then [.quad m] else []
  | .triangle m => if m.is_light then [.triangle m] else []
  | .constantMedium => []
  | .hittableList children => getLightsOfList children

/-- The loop of `HittableList::get_lights`. -/
def HittablesW.getLightsOfList : List HittablesW → List HittablesW
  | [] => []
  | child :: rest => child.get_lights ++ getLightsOfList rest

end

mutual

/-- Whether the tree contains at least one primitive whose material
emits light. -/
def HittablesW.containsLight : HittablesW → Bool
  | .sphere m => m.is_light
  | .quad m => m.is_light
  | .triangle m => m.is_light
  | .constantMedium => false
  | .hittableList children => listContainsLight children

/-- Any child of the list contains a light. -/
def HittablesW.listContainsLight : List HittablesW → Bool
  | [] => false
  | child :: rest => child.containsLight || listContainsLight rest

end

/-- `renderer/shader.rs::Shaders`: the closed shader enum; parameters
other than the variant do not matter to `needs_light`. -/
inductive Shaders where
  | pathTracingShader : (maxDepth : ℕ) → Shaders
  | albedoShader : Shaders
  | normalShader : Shaders
  | simpleShader : Shaders
deriving DecidableEq

/-- `Shader::needs_light`: only the full path tracer requires a light
in the scene. -/
def Shaders.needs_light : Shaders → Bool
  | .pathTracingShader _ => true
  | _ => false

/-- `post/*.rs::PostProcessors`: the closed post-processor enum.  The
denoiser (`post/oidn.rs`, feature-enabled implementation) declares that
it needs the auxiliary buffers; the bloom filter and the no-op stage do
not. -/
inductive PostProcessors where
  | nopPostProcessor : PostProcessors
  | bloomPostProcessor : PostProcessors
  | oidnPostProcessor : PostProcessors
deriving DecidableEq

/-- `PostProcessor::needs_albedo_and_normal_colors` per variant. -/
def PostProcessors.needs_albedo_and_normal_colors : PostProcessors → Bool
  | .nopPostProcessor => false
  | .bloomPostProcessor => false
  | .oidnPostProcessor => true

/-- `renderer/mod.rs::RenderConfig` (the fields the claims consult). -/
structure RenderConfig where
  samples_per_pixel : ℕ
  shader : Shaders
  post_processors : List PostProcessors
deriving DecidableEq

/-- `RenderConfig::needs_albedo_and_normal_colors`: true when any stage
of the chain declares the need. -/
def RenderConfig.needs_albedo_and_normal_colors (rc : RenderConfig) : Bool :=
  rc.post_processors.any (fun p => p.needs_albedo_and_normal_colors)

/-- `renderer/mod.rs::Scene` (background color and camera elided: the
construction claims do not consult them). -/
structure Scene where
  world : HittablesW
  render_config : RenderConfig

/-- `renderer/mod.rs::Renderer`. -/
structure Renderer where
  scene : Scene
  lights : List HittablesW

/-- `Renderer::new`: collects the world's lights, fails with the typed
message when there is none and the shader needs one, and otherwise
defaults an empty post-processor chain to the no-op stage. -/
def Renderer.new (scene : Scene) : Except String Renderer :=
  let light_list := scene.world.get_lights
  if light_list.isEmpty && scene.render_config.shader.needs_light then
    .error ("Scene should have at least one light")
  else
    let rc := scene.render_config
    let rc := if rc.post_processors.isEmpty then
        { rc with post_processors := [.nopPostProcessor] }
      else rc
    .ok { scene := { scene with render_config := rc }, lights := light_list }

/-- The local `needs_albedo_and_normal_colors` binding of
`Renderer::render` (`renderer/mod.rs` lines 189-190), which NEGATES the
config's flag; the row tasks allocate and merge the auxiliary buffers
exactly when this local flag is true. -/
def renderAuxWriteFlag (rc : RenderConfig) : Bool :=
  !(rc.needs_albedo_and_normal_colors)

/-- Result of `Renderer::ray_color` for one camera ray
(`renderer/mod.rs::RayColorResult`), with colors in the exact `f64`
model. -/
structure RayColorResult where
  pixel_color : FModel.Color
  albedo_color : FModel.Color
  normal_color : FModel.Color
deriving DecidableEq

/-- The zero vector `ZERO_VECTOR`. -/
def zeroColor : FModel.Color :=
  ⟨.val 0, .val 0, .val 0⟩

/-- The miss branch of `Renderer::ray_color` (`renderer/mod.rs` lines
165-172): background color for the pixel, background for the albedo
buffer, zero for the normal buffer. -/
def rayColorMiss (background : FModel.Color) : RayColorResult :=
  { pixel_color := background
    albedo_color := background
    normal_color := zeroColor }

/-- The per-row albedo buffer a row task produces (`renderer/mod.rs`
lines 219-242): when the local flag is set the row is materialized from
the per-ray results and later merged into the shared accumulation
buffer; otherwise nothing is produced for the row. -/
def rowAlbedoColors (writeFlag : Bool) (results : List RayColorResult) : List FModel.Color :=
  if writeFlag then results.map (fun r => r.albedo_color) else []

/-- The per-row normal buffer, same guard as the albedo row. -/
def rowNormalColors (writeFlag : Bool) (results : List RayColorResult) : List FModel.Color :=
  if writeFlag then results.map (fun r => r.normal_color) else []

end RendererM

namespace BvhM

/-- Scalar type of the BVH component: rationals extended with the two
infinities (`f64::INFINITY` is `⊤`, `f64::NEG_INFINITY` is `⊥`).  The
component only compares, takes `min`/`max`, and does finite arithmetic,
so this models `f64` exactly (up to rounding of centroid arithmetic,
which no claim depends on). -/
abbrev F : Type := WithBot (WithTop ℚ)

/-- A finite `f64` value. -/
def fq (q : ℚ) : F :=
  ((q : WithTop ℚ) : F)

/-- `f64` addition restricted to the cases the builder reaches (both
infinities only ever appear as fold seeds and are absorbed). -/
def F.add : F → F → F
  | Option.some (Option.some a), Option.some (Option.some b) => fq (a + b)
  | Option.none, _ => Option.none
  | _, Option.none => Option.none
  | Option.some Option.none, _ => Option.some Option.none
  | _, _ => Option.some Option.none

/-- `f64` subtraction, same reachable cases. -/
def F.sub : F → F → F
  | Option.some (Option.some a), Option.some (Option.some b) => fq (a - b)
  | Option.none, _ => Option.none
  | _, Option.none => Option.some Option.none
  | Option.some Option.none, _ => Option.some Option.none
  | _, _ => Option.none

/-- Multiplication by the literal `0.5`. -/
def F.half : F → F
  | Option.some (Option.some a) => fq (a / 2)
  | x => x

/-- `util/interval.rs::Interval`: a closed range between `min` and
`max`. -/
structure Interval where
  min : F
  max : F
deriving DecidableEq

/-- `util/interval.rs::EMPTY_INTERVAL`: `[INFINITY, NEG_INFINITY]`,
which contains nothing. -/
def EMPTY_INTERVAL : Interval :=
  ⟨⊤, ⊥⟩

/-- `Interval::contains`: `min <= x && x <= max` (a closed interval). -/
def Interval.contains (i : Interval) (x : F) : Bool :=
  decide (i.min ≤ x) && decide (x ≤ i.max)

/-- `util/interval.rs::combine_intervals`: union of the two ranges,
including any gap between them. -/
def combine_intervals (a b : Interval) : Interval :=
  ⟨min a.min b.min, max a.max b.max⟩

/-- `geo/mod.rs::Aabb`: an axis-aligned box as three intervals. -/
structure Aabb where
  x : Interval
  y : Interval
  z : Interval
deriving DecidableEq

/-- The manual `Default` impl for `Aabb`: all three axes empty. -/
def Aabb.default : Aabb :=
  ⟨EMPTY_INTERVAL, EMPTY_INTERVAL, EMPTY_INTERVAL⟩

/-- `Aabb::combine`: componentwise interval union. -/
def Aabb.combine (self a : Aabb) : Aabb :=
  ⟨combine_intervals self.x a.x, combine_intervals self.y a.y, combine_intervals self.z a.z⟩

/-- A point, as used for box centroids (`geo/vec3.rs::Vec3`). -/
structure Vec3F where
  x : F
  y : F
  z : F
deriving DecidableEq

/-- `Vec3::axis`: select a coordinate by index (`0` is x, `1` is y,
anything else is z). -/
def Vec3F.axis (v : Vec3F) (a : ℕ) : F :=
  if a = 0 then v.x else if a = 1 then v.y else v.z

/-- `Aabb::center`: the centroid `(min + max) * 0.5` per axis. -/
def Aabb.center (b : Aabb) : Vec3F :=
  ⟨F.half (F.add b.x.min b.x.max), F.half (F.add b.y.min b.y.max), F.half (F.add b.z.min b.z.max)⟩

/-- Model of one primitive (`Hittables` leaf) for one fixed ray: its
bounding box, and the list of parametric distances at which the fixed
ray meets it.  Its `hit` contract (below) is the nearest candidate
inside the queried closed interval, which is what every primitive's
closed-form intersection routine returns (spec section 4.2). -/
structure Prim where
  bBox : Aabb
  cands : List F
deriving DecidableEq

/-- The nearest element of `cs` lying inside the closed interval `I`. -/
def minInInterval (I : Interval) : List F → Option F
  | [] => Option.none
  | t :: ts =>
    if I.contains t then
      Option.some (match minInInterval I ts with
        | Option.none => t
        | Option.some m => min t m)
    else minInInterval I ts

/-- The modeled `Hittable::hit` of a leaf primitive: the nearest
candidate distance within the queried interval, if any. -/
def Prim.hit (p : Prim) (ray_length : Interval) : Option F :=
  minInInterval ray_length p.cands

/-- Centroid coordinate of a primitive's box along an axis, the sort
key of the builder. -/
def centerAxis (p : Prim) (a : ℕ) : F :=
  p.bBox.center.axis a

mutual

/-- `hittable/bvh.rs::BvhItem`: a child slot of a BVH node — an inner
node, a leaf wrapping one primitive, or `None` (the empty marker used
as the right child of single-primitive nodes). -/
inductive BvhItem where
  | node : Bvh → BvhItem
  | leaf : Prim → BvhItem
  | none : BvhItem
deriving DecidableEq

/-- `hittable/bvh.rs::Bvh`: a node with two child slots and a bounding
box. -/
inductive Bvh where
  | mk : BvhItem → BvhItem → Aabb → Bvh
deriving DecidableEq

end

/-- Left child slot. -/
def Bvh.left : Bvh → BvhItem
  | .mk l _ _ => l

/-- Right child slot. -/
def Bvh.right : Bvh → BvhItem
  | .mk _ r _ => r

/-- Node bounding box. -/
def Bvh.b_box : Bvh → Aabb
  | .mk _ _ b => b

/-- `bounding_box_spread`: fold the centroid coordinate of every
primitive along an axis, starting from `(INFINITY, NEG_INFINITY)`, and
return `(max - min, (min + max) * 0.5)`. -/
def bounding_box_spread (list : List Prim) (axis : ℕ) : F × F :=
  let mm := list.foldl
    (fun mm h => (min mm.1 (centerAxis h axis), max mm.2 (centerAxis h axis)))
    ((⊤ : F), (⊥ : F))
  (F.sub mm.2 mm.1, F.half (F.add mm.1 mm.2))

/-- `sort_hittables_by_center`: sort the primitives by their centroid
coordinate along the axis (the in-place unstable sort is modeled by a
sorted permutation), then return the index of the first primitive whose
centroid is at or beyond the given center coordinate (the list length
when there is none, exactly as the source's fall-through). -/
def sort_hittables_by_center (list : List Prim) (center : F) (axis : ℕ) : List Prim × ℕ :=
  let sorted := list.insertionSort (fun a b => centerAxis a axis ≤ centerAxis b axis)
  (sorted, sorted.findIdx (fun t => decide (center ≤ centerAxis t axis)))

/-- `sort_hittables_slice_by_most_spread_axis`: pick the axis of
greatest centroid spread, sort along it and split at its midpoint; if
the partition is degenerate (index `0` or the list length), fall back
to the numeric middle index. -/
def sort_hittables_slice_by_most_spread_axis (list : List Prim) : List Prim × ℕ :=
  let xsp := bounding_box_spread list 0
  let ysp := bounding_box_spread list 1
  let zsp := bounding_box_spread list 2
  let sc :=
    if xsp.1 ≥ ysp.1 ∧ xsp.1 ≥ zsp.1 then sort_hittables_by_center list xsp.2 0
    else if ysp.1 ≥ xsp.1 ∧ ysp.1 ≥ zsp.1 then sort_hittables_by_center list ysp.2 1
    else sort_hittables_by_center list zsp.2 2
  let center := if sc.2 = 0 ∨ sc.2 = list.length then list.length / 2 else sc.2
  (sc.1, center)

/-- `hittable/bvh.rs::new_bvh`, with an explicit structural recursion
bound (the source recursion terminates because both halves of a split
are strictly shorter; `new_bvh` below instantiates the bound with the
list length, which suffices).  One primitive gives a node with the leaf
on the left and `None` on the right; two give a node with two leaves;
more are sorted along the most spread axis, split, and recursed on. -/
def new_bvh_fuel : ℕ → List Prim → Bvh
  | 0, _ => .mk .none .none Aabb.default
  | _ + 1, [] => .mk .none .none Aabb.default
  | _ + 1, [p] => .mk (.leaf p) .none p.bBox
  | _ + 1, [p, q] => .mk (.leaf p) (.leaf q) (p.bBox.combine q.bBox)
  | n + 1, p :: q :: r :: rest =>
    let sm := sort_hittables_slice_by_most_spread_axis (p :: q :: r :: rest)
    let l := new_bvh_fuel n (sm.1.take sm.2)
    let r := new_bvh_fuel n (sm.1.drop sm.2)
    .mk (.node l) (.node r) (l.b_box.combine r.b_box)

/-- `hittable/bvh.rs::new_bvh` (never invoked on an empty list). -/
def new_bvh (list : List Prim) : Bvh :=
  new_bvh_fuel list.length list

/-- `Bvh::new`: the empty list yields a degenerate node with two `None`
children and the default (empty) box; any other list is handed to
`new_bvh`.  The function is total — there is no error path. -/
def Bvh.new (list : List Prim) : Bvh :=
  if list.isEmpty then .mk .none .none Aabb.default else new_bvh list

mutual

/-- `Bvh::hit` for one fixed ray, with the box test abstracted to a
predicate on boxes (the slab test of `Aabb::hit` evaluated at the fixed
ray): reject when the node box misses; otherwise query the left child,
narrow the interval's upper bound to the left hit's distance, query the
right child with the narrowed interval, and return the right hit when
one exists, else the left one. -/
def Bvh.hit (boxHit : Aabb → Bool) : Bvh → Interval → Option F
  | .mk l r bb, ray_length =>
    if boxHit bb then
      match BvhItem.hit boxHit l ray_length with
      | Option.none => BvhItem.hit boxHit r ray_length
      | Option.some left_rec =>
        match BvhItem.hit boxHit r ⟨ray_length.min, left_rec⟩ with
        | Option.some right_rec => Option.some right_rec
        | Option.none => Option.some left_rec
    else Option.none

/-- `BvhItem::hit`: dispatch to the node or leaf, `None` never hits. -/
def BvhItem.hit (boxHit : Aabb → Bool) : BvhItem → Interval → Option F
  | .node i, ray_length => Bvh.hit boxHit i ray_length
  | .leaf i, ray_length => Prim.hit i ray_length
  | .none, _ => Option.none

end

/-- `hittable/hittable_list.rs::HittableList::hit` loop: scan the
children, narrowing the interval's upper bound to the best hit so far
(the lower bound stays the original `ray_length.min`). -/
def listHitGo (rayMin : F) : List Prim → Interval → Option F → Option F
  | [], _, acc => acc
  | h :: t, closest_interval, acc =>
    match Prim.hit h closest_interval with
    | Option.some hit_record => listHitGo rayMin t ⟨rayMin, hit_record⟩ (Option.some hit_record)
    | Option.none => listHitGo rayMin t closest_interval acc

/-- `HittableList::hit`: the flat linear scan over all primitives. -/
def HittableList.hit (list : List Prim) (ray_length : Interval) : Option F :=
  listHitGo ray_length.min list ⟨ray_length.min, ray_length.max⟩ Option.none

mutual

/-- All hit candidates of the primitives stored in a subtree. -/
def Bvh.cands : Bvh → List F
  | .mk l r _ => l.itemCands ++ r.itemCands

/-- All hit candidates below a child slot. -/
def BvhItem.itemCands : BvhItem → List F
  | .node b => b.cands
  | .leaf p => p.cands
  | .none => []

end

mutual

/-- Box conservativeness of a tree for one fixed ray and query
interval: whenever a node's box fails the ray's box test, no primitive
below it has a candidate inside the interval.  This is the bounding-box
invariant of the spec (section 3): boxes conservatively contain all
geometry of their subtree. -/
def Bvh.conservative (boxHit : Aabb → Bool) (I : Interval) : Bvh → Prop
  | .mk l r bb =>
    (boxHit bb = false → ∀ t ∈ l.itemCands ++ r.itemCands, I.contains t = false) ∧
    BvhItem.itemConservative boxHit I l ∧ BvhItem.itemConservative boxHit I r

/-- Conservativeness below a child slot. -/
def BvhItem.itemConservative (boxHit : Aabb → Bool) (I : Interval) : BvhItem → Prop
  | .node b => Bvh.conservative boxHit I b
  | .leaf _ => True
  | .none => True

end

/-- `o` is the nearest element of `cs` inside `I` (or there is none). -/
def isMinIn (I : Interval) (cs : List F) : Option F → Prop
  | Option.none => ∀ t ∈ cs, I.contains t = false
  | Option.some m => m ∈ cs ∧ I.contains m = true ∧ ∀ u ∈ cs, I.contains u = true → m ≤ u

/-- The box of a child slot; the empty marker contributes the default
empty box, the neutral element of `combine`. -/
def BvhItem.boxOf : BvhItem → Aabb
  | .node b => b.b_box
  | .leaf p => p.bBox
  | .none => Aabb.default

mutual

/-- Every node's box is the combination of its two child slots' boxes
(with the empty marker contributing the neutral empty box). -/
def Bvh.nodeBoxesOk : Bvh → Prop
  | .mk l r bb =>
    bb = (BvhItem.boxOf l).combine (BvhItem.boxOf r) ∧
    BvhItem.itemBoxesOk l ∧ BvhItem.itemBoxesOk r

/-- Box predicate below a child slot. -/
def BvhItem.itemBoxesOk : BvhItem → Prop
  | .node b => b.nodeBoxesOk
  | .leaf _ => True
  | .none => True

end

mutual

/-- Shape of the nodes the builder produces: a single-primitive node
holds its leaf on the left, the empty marker on the right, and the
leaf's own box; every other node has both child slots populated and the
combined box. -/
def Bvh.shapeOk : Bvh → Prop
  | .mk l r bb =>
    ((∃ p, l = .leaf p ∧ r = .none ∧ bb = p.bBox) ∨
      (l ≠ .none ∧ r ≠ .none ∧ bb = (BvhItem.boxOf l).combine (BvhItem.boxOf r))) ∧
    BvhItem.itemShapeOk l ∧ BvhItem.itemShapeOk r

/-- Shape predicate below a child slot. -/
def BvhItem.itemShapeOk : BvhItem → Prop
  | .node b => b.shapeOk
  | .leaf _ => True
  | .none => True

end

/-- The union box stated the way the specification states it: per axis,
the min of all the input boxes' mins and the max of all their maxes
(folded from the empty box, i.e. from `INFINITY`/`NEG_INFINITY`). -/
def specUnionBox (list : List Prim) : Aabb :=
  ⟨⟨list.foldl (fun m p => min m p.bBox.x.min) ⊤, list.foldl (fun m p => max m p.bBox.x.max) ⊥⟩,
    ⟨list.foldl (fun m p => min m p.bBox.y.min) ⊤, list.foldl (fun m p => max m p.bBox.y.max) ⊥⟩,
    ⟨list.foldl (fun m p => min m p.bBox.z.min) ⊤, list.foldl (fun m p => max m p.bBox.z.max) ⊥⟩⟩

/-- The union box as the code computes unions: a `combine` fold from
the default empty box (this is also how `HittableList::new` computes
its box). -/
def boxUnion (list : List Prim) : Aabb :=
  list.foldl (fun acc p => acc.combine p.bBox) Aabb.default

end BvhM

namespace SphereM

noncomputable section

open Real

/-- `geo/vec3.rs::Vec3` over the reals (the closed-form quadratic solve
needs square roots, so this component idealizes `f64` as `ℝ`). -/
structure Vec3 where
  x : ℝ
  y : ℝ
  z : ℝ

/-- Componentwise addition. -/
def Vec3.add (a b : Vec3) : Vec3 :=
  ⟨a.x + b.x, a.y + b.y, a.z + b.z⟩

/-- Componentwise subtraction. -/
def Vec3.sub (a b : Vec3) : Vec3 :=
  ⟨a.x - b.x, a.y - b.y, a.z - b.z⟩

/-- Scalar multiplication. -/
def Vec3.mulScalar (a : Vec3) (s : ℝ) : Vec3 :=
  ⟨a.x * s, a.y * s, a.z * s⟩

/-- Scalar division. -/
def Vec3.divScalar (a : Vec3) (s : ℝ) : Vec3 :=
  ⟨a.x / s, a.y / s, a.z / s⟩

/-- `Vec3::neg`. -/
def Vec3.neg (a : Vec3) : Vec3 :=
  ⟨-a.x, -a.y, -a.z⟩

/-- `Vec3::dot`. -/
def Vec3.dot (a b : Vec3) : ℝ :=
  a.x * b.x + a.y * b.y + a.z * b.z

/-- `Vec3::cross`. -/
def Vec3.cross (a b : Vec3) : Vec3 :=
  ⟨a.y * b.z - a.z * b.y, a.z * b.x - a.x * b.z, a.x * b.y - a.y * b.x⟩

/-- `Vec3::length_squared`. -/
def Vec3.lengthSquared (a : Vec3) : ℝ :=
  a.x * a.x + a.y * a.y + a.z * a.z

/-- `Vec3::length`. -/
def Vec3.length (a : Vec3) : ℝ :=
  Real.sqrt a.lengthSquared

/-- `Vec3::unit`: the vector scaled to length one. -/
def Vec3.unit (a : Vec3) : Vec3 :=
  a.divScalar a.length

/-- `geo/mod.rs::Ray`, carrying the precomputed inverted direction. -/
structure Ray where
  origin : Vec3
  direction : Vec3
  direction_inverted : Vec3

/-- `Ray::new`. -/
def Ray.new (origin dir : Vec3) : Ray :=
  ⟨origin, dir, ⟨1 / dir.x, 1 / dir.y, 1 / dir.z⟩⟩

/-- `Ray::at`: the position a given parametric distance along the ray. -/
def Ray.at (r : Ray) (distance : ℝ) : Vec3 :=
  r.origin.add (r.direction.mulScalar distance)

/-- `util/interval.rs::Interval` for this component, with extended-real
bounds so that the infinite bounds of `f64` intervals (such as the
global ray interval) are representable. -/
structure IntervalR where
  min : EReal
  max : EReal

/-- `Interval::contains` (closed on both ends). -/
def IntervalR.contains (i : IntervalR) (x : ℝ) : Prop :=
  i.min ≤ (x : EReal) ∧ (x : EReal) ≤ i.max

/-- Modelled from the spec: `util/interval.rs::RAY_INTERVAL`, the
global query interval for light-sampling rays, is referenced by
`hittable/sphere.rs` but its definition is not among the provided
sources.  Per the spec (section 4.2) the acceptable parametric distance
is clipped to be non-negative with no upper bound; a small positive
epsilon is used as the lower end. -/
def RAY_INTERVAL : IntervalR :=
  ⟨((1 / 1000 : ℝ) : EReal), ⊤⟩

/-- Texture coordinates (`geo/mod.rs::Uv`; the `f32` narrowing is
elided). -/
structure Uv where
  u : ℝ
  v : ℝ

/-- `f64::atan2` as a real function (the four-quadrant arctangent). -/
def atan2 (y x : ℝ) : ℝ :=
  if 0 < x then Real.arctan (y / x)
  else if x < 0 ∧ 0 ≤ y then Real.arctan (y / x) + π
  else if x < 0 then Real.arctan (y / x) - π
  else if 0 < y then π / 2
  else if y < 0 then -(π / 2)
  else 0

/-- `hittable/sphere.rs::calculate_sphere_uv`. -/
def calculate_sphere_uv (point_on_sphere : Vec3) : Uv :=
  let theta := -(Real.arccos point_on_sphere.y)
  let phi := -(atan2 point_on_sphere.z point_on_sphere.x) + π
  ⟨phi / (2 * π), theta / π⟩

/-- `material/mod.rs::RayHit`: the transient intersection record.  The
material reference is elided (no geometric claim consults it). -/
structure HitRecord where
  hit_point : Vec3
  normal : Vec3
  ray_length : ℝ
  uv : Uv
  front_face : Bool

/-- `hittable/sphere.rs::Sphere` (the material and the precomputed
bounding box are elided; `hit` uses neither). -/
structure Sphere where
  center : Vec3
  radius : ℝ

/-- The local `oc` of `Sphere::hit`: ray origin minus sphere center. -/
def sphere_oc (s : Sphere) (r : Ray) : Vec3 :=
  r.origin.sub s.center

/-- The local `a` of `Sphere::hit`: squared direction length. -/
def sphere_a (r : Ray) : ℝ :=
  r.direction.lengthSquared

/-- The local `half_b` of `Sphere::hit`. -/
def sphere_half_b (s : Sphere) (r : Ray) : ℝ :=
  (sphere_oc s r).dot r.direction

/-- The local `c` of `Sphere::hit`. -/
def sphere_c (s : Sphere) (r : Ray) : ℝ :=
  (sphere_oc s r).lengthSquared - s.radius * s.radius

/-- The local `discriminant` of `Sphere::hit`. -/
def sphere_discriminant (s : Sphere) (r : Ray) : ℝ :=
  sphere_half_b s r * sphere_half_b s r - sphere_a r * sphere_c s r

/-- The first root tried by `Sphere::hit` (the nearer one for a true
quadratic): `(-half_b - sqrt d) / a`. -/
def sphere_root1 (s : Sphere) (r : Ray) : ℝ :=
  (-(sphere_half_b s r) - Real.sqrt (sphere_discriminant s r)) / sphere_a r

/-- The fallback root of `Sphere::hit`: `(-half_b + sqrt d) / a`. -/
def sphere_root2 (s : Sphere) (r : Ray) : ℝ :=
  (-(sphere_half_b s r) + Real.sqrt (sphere_discriminant s r)) / sphere_a r

open Classical in
/-- `Sphere::hit`: the closed-form quadratic solve.  A negative
discriminant is a miss; otherwise the nearer root is taken when the
interval contains it, the farther root is the fallback, and when
neither is contained the result is a miss.  The locals of the source
are the named functions above. -/
def Sphere.hit (s : Sphere) (r : Ray) (ray_length : IntervalR) : Option HitRecord :=
  if sphere_discriminant s r < 0 then Option.none
  else
    match (if ray_length.contains (sphere_root1 s r) then Option.some (sphere_root1 s r)
      else if ray_length.contains (sphere_root2 s r) then Option.some (sphere_root2 s r)
      else Option.none) with
    | Option.none => Option.none
    | Option.some root =>
      let hit_point := r.at root
      let normal := (hit_point.sub s.center).divScalar s.radius
      let uv := calculate_sphere_uv normal
      let front_face := r.direction.dot normal < 0
      Option.some
        ⟨hit_point, if front_face then normal else normal.neg, root, uv,
          if front_face then true else false⟩

/-- `Sphere::pdf_value`: zero when a probe ray from the origin misses
the sphere, otherwise the inverse of the subtended cone's solid angle. -/
def Sphere.pdf_value (s : Sphere) (origin direction : Vec3) : ℝ :=
  let ray := Ray.new origin direction
  match s.hit ray RAY_INTERVAL with
  | Option.none => 0
  | Option.some _ =>
    let cos_theta_max :=
      Real.sqrt (1 - s.radius * s.radius / ((s.center.sub origin).lengthSquared))
    let solid_angle := 2 * π * (1 - cos_theta_max)
    1 / solid_angle

/-- `geo/mod.rs::Onb`: an orthonormal basis. -/
structure Onb where
  u : Vec3
  v : Vec3
  w : Vec3

open Classical in
/-- `Onb::new`. -/
def Onb.new (w : Vec3) : Onb :=
  let unit_w := w.unit
  let a : Vec3 := if 0.9 < |unit_w.x| then ⟨0, 1, 0⟩ else ⟨1, 0, 0⟩
  let v := (unit_w.cross a).unit
  let u := unit_w.cross v
  ⟨u, v, unit_w⟩

/-- `pdf.rs::SPHERE_PDF_VALUE`: the constant density `1 / (4π)` of the
uniform sphere distribution. -/
def SPHERE_PDF_VALUE : ℝ :=
  1 / (4 * π)

/-- `pdf.rs::Pdfs`: the closed enum of probability density functions.
The container's objects are the scene's emissive hittables; sphere
lights are embedded (quad and triangle lights have analogous densities
and are elided — no claim depends on a particular light shape). -/
inductive Pdfs where
  | cosinePdf : Onb → Pdfs
  | containerPdf : List Sphere → Vec3 → Pdfs
  | spherePdf : Pdfs

/-- `Pdf::value` for each variant: the cosine density
`max(cos θ / π, 0)` around the basis normal, the container's mean of
its objects' densities, and the constant sphere density. -/
def Pdfs.value : Pdfs → Vec3 → ℝ
  | .cosinePdf uvw, direction => max ((direction.unit.dot uvw.w) / π) 0
  | .containerPdf objects origin, direction =>
    ((objects.map (fun i => i.pdf_value origin direction)).sum) / (objects.length : ℝ)
  | .spherePdf, _ => SPHERE_PDF_VALUE

/-- `pdf.rs::mix_value`: the mixture density of two pdfs at a
direction. -/
def mix_value (p0 p1 : Pdfs) (direction : Vec3) : ℝ :=
  0.5 * p0.value direction + 0.5 * p1.value direction

end

end SphereM

/-! ## Theorems -/

namespace FModel

/-- The sanitizer meets its per-channel contract. -/
theorem sanitized_filter_color_value (v : FVal) : Sanitized v (filter_color_value v) := by
  unfold Sanitized filter_color_value
  cases v with
  | nan => simp [FVal.isNan, FVal.fle]
  | negInf => simp [FVal.isNan, FVal.fmin, FVal.fle]
  | posInf => simp [FVal.isNan, FVal.fmin, FVal.fle]
  | val q =>
    refine ⟨?_, ?_, ?_, ?_⟩
    · by_cases h : q ≤ 3 <;> simp [FVal.isNan, FVal.fmin, FVal.fle, h]
    · by_cases h : q ≤ 3 <;> simp [FVal.isNan, FVal.fmin, FVal.fle, h]
    · simp [FVal.isNan]
    · intro _ hle
      have h : q ≤ 3 := by simpa [FVal.fle] using hle
      simp [FVal.isNan, FVal.fmin, FVal.fle, h]

/-- C8: in the path-tracing shader's PDF scatter branch the combined
color (emission plus scatter contribution) is sanitized channel-wise
before being returned: every NaN channel becomes zero, every non-NaN
channel is clamped to at most the fixed ceiling `3.0` (so the returned
color never contains NaN and never exceeds the ceiling), and channels
already at or below the ceiling pass through unchanged. -/
theorem c8_pdf_scatter_color_sanitized (emitted scatterColor : Color) :
    Sanitized (emitted.add scatterColor).x (pdfScatterBranchColor emitted scatterColor).x ∧
    Sanitized (emitted.add scatterColor).y (pdfScatterBranchColor emitted scatterColor).y ∧
    Sanitized (emitted.add scatterColor).z (pdfScatterBranchColor emitted scatterColor).z :=
  ⟨sanitized_filter_color_value _, sanitized_filter_color_value _, sanitized_filter_color_value _⟩

/-- C8 witness: a concrete combined color with a NaN channel, an
over-ceiling channel and an in-range channel is sanitized to zero, to
the ceiling, and unchanged respectively. -/
theorem c8_witness :
    (pdfScatterBranchColor ⟨.nan, .val 7, .val 1⟩ ⟨.val 0, .val 7, .val 1⟩).x = .val 0 ∧
    (pdfScatterBranchColor ⟨.nan, .val 7, .val 1⟩ ⟨.val 0, .val 7, .val 1⟩).y = .val 3 ∧
    (pdfScatterBranchColor ⟨.nan, .val 7, .val 1⟩ ⟨.val 0, .val 7, .val 1⟩).z = .val 2 := by
  have h := c8_pdf_scatter_color_sanitized ⟨.nan, .val 7, .val 1⟩ ⟨.val 0, .val 7, .val 1⟩
  refine ⟨h.1.2.2.1 (by norm_num [Color.add, FVal.fadd, FVal.isNan]), ?_, ?_⟩
  · norm_num [pdfScatterBranchColor, filter_invalid_color_values, filter_color_value,
      Color.add, FVal.fadd, FVal.isNan, FVal.fmin, FVal.fle]
  · have hz := h.2.2.2.2.2 (by norm_num [Color.add, FVal.fadd, FVal.isNan])
      (by norm_num [Color.add, FVal.fadd, FVal.fle])
    rw [hz]
    norm_num [Color.add, FVal.fadd]

end FModel

namespace SphereM

/-- C7: for every pair of PDFs and every direction, the mixture density
`mix_value` is `0.5 * p0.value(d) + 0.5 * p1.value(d)`, that is, the
unweighted arithmetic mean of the two constituent densities. -/
theorem c7_mix_value_average (p0 p1 : Pdfs) (d : Vec3) :
    mix_value p0 p1 d = 0.5 * p0.value d + 0.5 * p1.value d ∧
    mix_value p0 p1 d = (p0.value d + p1.value d) / 2 := by
  constructor
  · rfl
  · unfold mix_value
    ring

end SphereM

namespace RendererM

mutual

/-- A hittable tree collects no lights exactly when no primitive in it
has a light-emitting material. -/
theorem get_lights_nil_iff : ∀ (w : HittablesW), w.get_lights = [] ↔ w.containsLight = false
  | .sphere m => by
    cases m <;> simp [HittablesW.get_lights, HittablesW.containsLight, Materials.is_light]
  | .quad m => by
    cases m <;> simp [HittablesW.get_lights, HittablesW.containsLight, Materials.is_light]
  | .triangle m => by
    cases m <;> simp [HittablesW.get_lights, HittablesW.containsLight, Materials.is_light]
  | .constantMedium => by
    simp [HittablesW.get_lights, HittablesW.containsLight]
  | .hittableList children => by
    simpa [HittablesW.get_lights, HittablesW.containsLight] using
      getLightsOfList_nil_iff children

/-- The list form of the previous equivalence. -/
theorem getLightsOfList_nil_iff :
    ∀ (l : List HittablesW),
      HittablesW.getLightsOfList l = [] ↔ HittablesW.listContainsLight l = false
  | [] => by
    simp [HittablesW.getLightsOfList, HittablesW.listContainsLight]
  | child :: rest => by
    simp [HittablesW.getLightsOfList, HittablesW.listContainsLight,
      get_lights_nil_iff child, getLightsOfList_nil_iff rest]

end

/-- C5: constructing a `Renderer` over a scene with zero light-emitting
primitives while the shading strategy declares that it needs a light
returns the typed "scene should have at least one light" error (before
any rendering work exists — construction stops at the error); with at
least one light, or a shader that does not need one, construction
succeeds, the collected lights and the world and shader are retained.
A world has zero collected lights exactly when it has zero
light-emitting primitives. -/
theorem c5_renderer_new_light_check (scene : Scene) :
    (scene.world.get_lights = [] ∧ scene.render_config.shader.needs_light = true →
      Renderer.new scene = .error ("Scene should have at least one light")) ∧
    (scene.world.get_lights ≠ [] ∨ scene.render_config.shader.needs_light = false →
      ∃ r, Renderer.new scene = .ok r ∧ r.lights = scene.world.get_lights ∧
        r.scene.world = scene.world ∧
        r.scene.render_config.shader = scene.render_config.shader) ∧
    (scene.world.get_lights = [] ↔ scene.world.containsLight = false) := by
  refine ⟨?_, ?_, get_lights_nil_iff scene.world⟩
  · rintro ⟨h1, h2⟩
    unfold Renderer.new
    simp [h1, h2]
  · intro h
    unfold Renderer.new
    have hguard : ¬((scene.world.get_lights.isEmpty && scene.render_config.shader.needs_light) = true) := by
      rcases h with h | h
      · simp [List.isEmpty_iff, h]
      · simp [h]
    rw [if_neg hguard]
    refine ⟨_, rfl, rfl, rfl, ?_⟩
    by_cases hp : scene.render_config.post_processors.isEmpty
    · simp only [hp, if_true]
    · simp only [hp, if_false, Bool.false_eq_true]

/-- C5 witness: a lightless world with the path-tracing shader fails
with the typed message, and the same scene with an emissive sphere
constructs successfully. -/
theorem c5_witness :
    Renderer.new ⟨.sphere .lambertian, ⟨50, .pathTracingShader 50, []⟩⟩ =
      .error ("Scene should have at least one light") ∧
    (Renderer.new ⟨.sphere .diffuseLight, ⟨50, .pathTracingShader 50, []⟩⟩).isOk = true := by
  constructor
  · exact (c5_renderer_new_light_check _).1
      ⟨by simp [HittablesW.get_lights, Materials.is_light], rfl⟩
  · obtain ⟨r, hr, -⟩ :=
      (c5_renderer_new_light_check ⟨.sphere .diffuseLight, ⟨50, .pathTracingShader 50, []⟩⟩).2.1
        (Or.inl (by simp [HittablesW.get_lights, Materials.is_light]))
    rw [hr]
    rfl

/-- C2 (evaluation at the failing inputs): `Renderer::render` binds its
local `needs_albedo_and_normal_colors` to the NEGATION of the config's
`needs_albedo_and_normal_colors()`, so with a chain containing the
denoiser (which declares the need) the auxiliary rows are not produced
and the buffers keep their zero contents, while with a chain that
declares no need the rows are produced and merged (a missing ray writes
the background color into the albedo buffer). -/
theorem c2_aux_buffer_guard_inverted :
    RenderConfig.needs_albedo_and_normal_colors ⟨50, .pathTracingShader 50, [.oidnPostProcessor]⟩ = true ∧
    renderAuxWriteFlag ⟨50, .pathTracingShader 50, [.oidnPostProcessor]⟩ = false ∧
    RenderConfig.needs_albedo_and_normal_colors ⟨50, .pathTracingShader 50, [.nopPostProcessor]⟩ = false ∧
    renderAuxWriteFlag ⟨50, .pathTracingShader 50, [.nopPostProcessor]⟩ = true ∧
    rowAlbedoColors (renderAuxWriteFlag ⟨50, .pathTracingShader 50, [.oidnPostProcessor]⟩)
      [rayColorMiss ⟨.val 1, .val 1, .val 1⟩] = [] ∧
    rowNormalColors (renderAuxWriteFlag ⟨50, .pathTracingShader 50, [.oidnPostProcessor]⟩)
      [rayColorMiss ⟨.val 1, .val 1, .val 1⟩] = [] ∧
    rowAlbedoColors (renderAuxWriteFlag ⟨50, .pathTracingShader 50, [.nopPostProcessor]⟩)
      [rayColorMiss ⟨.val 1, .val 1, .val 1⟩] = [⟨.val 1, .val 1, .val 1⟩] := by
  simp [RenderConfig.needs_albedo_and_normal_colors, renderAuxWriteFlag,
    PostProcessors.needs_albedo_and_normal_colors, rowAlbedoColors, rowNormalColors,
    rayColorMiss]

end RendererM

/-- The fold of IEEE addition over finite values stays finite. -/
theorem fsum_all_val (l : List FModel.FVal) (h : ∀ v ∈ l, ∃ q, v = FModel.FVal.val q) :
    ∃ q, FModel.fsum l = FModel.FVal.val q := by
  unfold FModel.fsum
  suffices hgen : ∀ (l : List FModel.FVal) (q0 : ℚ), (∀ v ∈ l, ∃ q, v = FModel.FVal.val q) →
      ∃ q, l.foldl FModel.FVal.fadd (.val q0) = FModel.FVal.val q by
    exact hgen l 0 h
  intro l
  induction l with
  | nil => exact fun q0 _ => ⟨q0, rfl⟩
  | cons v t ih =>
    intro q0 hv
    obtain ⟨qv, hqv⟩ := hv v (by simp)
    subst hqv
    simpa [FModel.FVal.fadd] using ih (q0 + qv) (fun u hu => hv u (by simp [hu]))

/-- C10: `ContainerPdf::value` divides the summed per-light densities
by the slice length with no emptiness guard: on the empty slice the
division `0.0 / 0` produces NaN rather than an error, on any non-empty
slice of finite densities the value is a well-defined finite number,
and the renderer's at-least-one-light construction check guarantees a
shader that needs lights never sees the empty slice. -/
theorem c10_container_pdf_division :
    (∀ origin direction, FModel.containerPdfValueF [] origin direction = FModel.FVal.nan) ∧
    (∀ objects origin direction, objects ≠ [] →
      (∀ l ∈ objects, ∃ q, FModel.LightF.density l origin direction = FModel.FVal.val q) →
      ∃ q, FModel.containerPdfValueF objects origin direction = FModel.FVal.val q) ∧
    (∀ scene r, RendererM.Renderer.new scene = .ok r →
      r.scene.render_config.shader.needs_light = true → r.lights ≠ []) := by
  refine ⟨?_, ?_, ?_⟩
  · intro origin direction
    simp [FModel.containerPdfValueF, FModel.fsum, FModel.FVal.fdiv]
  · intro objects origin direction hne hfin
    obtain ⟨S, hS⟩ := fsum_all_val (objects.map (fun i => i.density origin direction))
      (by
        intro v hv
        obtain ⟨i, hi, rfl⟩ := List.mem_map.1 hv
        exact hfin i hi)
    have hlen : (objects.length : ℚ) ≠ 0 :=
      Nat.cast_ne_zero.mpr (List.length_pos.2 hne).ne'
    refine ⟨S / objects.length, ?_⟩
    simp [FModel.containerPdfValueF, hS, FModel.FVal.fdiv, hlen]
  · intro scene r hok hneed
    unfold RendererM.Renderer.new at hok
    by_cases hguard :
        (scene.world.get_lights.isEmpty && scene.render_config.shader.needs_light) = true
    · rw [if_pos hguard] at hok
      exact absurd hok (by simp)
    · rw [if_neg hguard] at hok
      simp only [Except.ok.injEq] at hok
      have hlights : r.lights = scene.world.get_lights := by
        rw [← hok]
      have hshader : r.scene.render_config.shader = scene.render_config.shader := by
        rw [← hok]
        by_cases hp : scene.render_config.post_processors.isEmpty <;> simp [hp]
      intro hnil
      apply hguard
      rw [hlights] at hnil
      rw [hshader] at hneed
      simp [List.isEmpty_iff, hnil, hneed]

namespace BvhM

/-- Interval union is commutative. -/
theorem combine_intervals_comm (a b : Interval) : combine_intervals a b = combine_intervals b a := by
  simp [combine_intervals, min_comm, max_comm]

/-- Interval union is associative. -/
theorem combine_intervals_assoc (a b c : Interval) :
    combine_intervals (combine_intervals a b) c = combine_intervals a (combine_intervals b c) := by
  simp [combine_intervals, min_assoc, max_assoc]

/-- The empty interval is a right identity of interval union. -/
theorem combine_intervals_empty_right (i : Interval) :
    combine_intervals i EMPTY_INTERVAL = i := by
  cases i
  simp only [combine_intervals, EMPTY_INTERVAL]
  congr 1
  · exact min_eq_left le_top
  · exact max_eq_left bot_le

/-- The empty interval is a left identity of interval union. -/
theorem combine_intervals_empty_left (i : Interval) :
    combine_intervals EMPTY_INTERVAL i = i := by
  rw [combine_intervals_comm]
  exact combine_intervals_empty_right i

/-- Box union is commutative. -/
theorem aabb_combine_comm (a b : Aabb) : a.combine b = b.combine a := by
  simp [Aabb.combine, combine_intervals_comm]

/-- Box union is associative. -/
theorem aabb_combine_assoc (a b c : Aabb) :
    (a.combine b).combine c = a.combine (b.combine c) := by
  simp [Aabb.combine, combine_intervals_assoc]

/-- The default empty box is a right identity of box union. -/
theorem aabb_combine_default_right (a : Aabb) : a.combine Aabb.default = a := by
  cases a
  simp [Aabb.combine, Aabb.default, combine_intervals_empty_right]

/-- The default empty box is a left identity of box union. -/
theorem aabb_combine_default_left (a : Aabb) : Aabb.default.combine a = a := by
  rw [aabb_combine_comm]
  exact aabb_combine_default_right a

/-- Appending to a union fold continues from the accumulated box. -/
theorem foldl_combine_from (l : List Prim) (acc : Aabb) :
    l.foldl (fun acc p => acc.combine p.bBox) acc = acc.combine (boxUnion l) := by
  induction l generalizing acc with
  | nil => simp [boxUnion, aabb_combine_default_right]
  | cons p t ih =>
    simp only [boxUnion, List.foldl_cons] at *
    rw [ih, ih (Aabb.default.combine p.bBox), aabb_combine_default_left, aabb_combine_assoc]

/-- The union of a concatenation is the union of the unions. -/
theorem boxUnion_append (a b : List Prim) :
    boxUnion (a ++ b) = (boxUnion a).combine (boxUnion b) := by
  simp only [boxUnion, List.foldl_append]
  exact foldl_combine_from b _

/-- The union box is invariant under permutation of the primitives. -/
theorem boxUnion_perm {l1 l2 : List Prim} (h : l1.Perm l2) : boxUnion l1 = boxUnion l2 := by
  have : RightCommutative (fun (acc : Aabb) (p : Prim) => acc.combine p.bBox) := by
    constructor
    intro b a1 a2
    simp only [aabb_combine_assoc]
    rw [aabb_combine_comm a1.bBox a2.bBox]
  exact h.foldl_eq Aabb.default

/-- The `combine` fold equals the spec's per-axis min/max folds. -/
theorem boxUnion_eq_specUnion (l : List Prim) : boxUnion l = specUnionBox l := by
  suffices hgen : ∀ (A : Aabb), l.foldl (fun acc p => acc.combine p.bBox) A =
      ⟨⟨l.foldl (fun m p => min m p.bBox.x.min) A.x.min,
        l.foldl (fun m p => max m p.bBox.x.max) A.x.max⟩,
        ⟨l.foldl (fun m p => min m p.bBox.y.min) A.y.min,
          l.foldl (fun m p => max m p.bBox.y.max) A.y.max⟩,
        ⟨l.foldl (fun m p => min m p.bBox.z.min) A.z.min,
          l.foldl (fun m p => max m p.bBox.z.max) A.z.max⟩⟩ by
    exact hgen Aabb.default
  induction l with
  | nil => intro A; rfl
  | cons p t ih =>
    intro A
    simp only [List.foldl_cons]
    rw [ih]
    rfl

/-- The sorted list returned by `sort_hittables_by_center` is a
permutation of the input, of equal length, and the returned index never
exceeds the length. -/
theorem sort_by_center_spec (l : List Prim) (c : F) (ax : ℕ) :
    (sort_hittables_by_center l c ax).1.Perm l ∧
    (sort_hittables_by_center l c ax).1.length = l.length ∧
    (sort_hittables_by_center l c ax).2 ≤ l.length := by
  refine ⟨List.perm_insertionSort _ l, List.length_insertionSort _ l, ?_⟩
  calc (sort_hittables_by_center l c ax).2
      ≤ (List.insertionSort (fun a b => centerAxis a ax ≤ centerAxis b ax) l).length :=
        List.findIdx_le_length _
    _ = l.length := List.length_insertionSort _ l

/-- The split chosen by `sort_hittables_slice_by_most_spread_axis` is a
sorted permutation together with a midpoint strictly inside the list
whenever the list has at least two elements. -/
theorem sortSpread_spec (l : List Prim) :
    (sort_hittables_slice_by_most_spread_axis l).1.Perm l ∧
    (sort_hittables_slice_by_most_spread_axis l).1.length = l.length ∧
    (2 ≤ l.length → 1 ≤ (sort_hittables_slice_by_most_spread_axis l).2 ∧
      (sort_hittables_slice_by_most_spread_axis l).2 < l.length) := by
  unfold sort_hittables_slice_by_most_spread_axis
  dsimp only
  have hsc : ∀ (c : F) (ax : ℕ),
      (sort_hittables_by_center l c ax).1.Perm l ∧
      (sort_hittables_by_center l c ax).1.length = l.length ∧
      (sort_hittables_by_center l c ax).2 ≤ l.length := fun c ax => sort_by_center_spec l c ax
  split_ifs <;>
    · obtain ⟨hperm, hlen, hle⟩ := hsc _ _
      refine ⟨hperm, hlen, ?_⟩
      intro hlen2
      constructor <;> omega

/-- Enough fuel makes the fuel parameter of `new_bvh_fuel` irrelevant. -/
theorem new_bvh_fuel_congr :
    ∀ (n m : ℕ) (l : List Prim), l.length ≤ n → l.length ≤ m →
      new_bvh_fuel n l = new_bvh_fuel m l
  | n, m, [] => by
    intro _ _
    cases n <;> cases m <;> rfl
  | n, m, [p] => by
    intro hn hm
    cases n with
    | zero => simp at hn
    | succ n =>
      cases m with
      | zero => simp at hm
      | succ m => rfl
  | n, m, [p, q] => by
    intro hn hm
    cases n with
    | zero => simp at hn
    | succ n =>
      cases m with
      | zero => simp at hm
      | succ m => rfl
  | n, m, p :: q :: r :: rest => by
    intro hn hm
    cases n with
    | zero => simp at hn
    | succ n =>
      cases m with
      | zero => simp at hm
      | succ m =>
        obtain ⟨hperm, hslen, hmid⟩ := sortSpread_spec (p :: q :: r :: rest)
        obtain ⟨hmid1, hmid2⟩ := hmid (by simp only [List.length_cons]; omega)
        simp only [new_bvh_fuel]
        have hmidlen : (sort_hittables_slice_by_most_spread_axis (p :: q :: r :: rest)).2 ≤
            rest.length + 2 := by
          simp only [List.length_cons] at hmid2
          omega
        have hn3 : rest.length + 2 ≤ n := by
          simp only [List.length_cons] at hn
          omega
        have hm3 : rest.length + 2 ≤ m := by
          simp only [List.length_cons] at hm
          omega
        have htlen : ((sort_hittables_slice_by_most_spread_axis (p :: q :: r :: rest)).1.take
            (sort_hittables_slice_by_most_spread_axis (p :: q :: r :: rest)).2).length ≤
              rest.length + 2 :=
          le_trans (List.length_take_le _ _) hmidlen
        have hdlen : ((sort_hittables_slice_by_most_spread_axis (p :: q :: r :: rest)).1.drop
            (sort_hittables_slice_by_most_spread_axis (p :: q :: r :: rest)).2).length ≤
              rest.length + 2 := by
          rw [List.length_drop, hslen]
          simp only [List.length_cons]
          omega
        rw [new_bvh_fuel_congr n m _ (le_trans htlen hn3) (le_trans htlen hm3),
          new_bvh_fuel_congr n m _ (le_trans hdlen hn3) (le_trans hdlen hm3)]
termination_by n m l => l.length
decreasing_by
  · simp_wf
    left
    simp only [List.length_cons] at hmid2
    exact hmid2
  · simp_wf
    rw [hslen]
    simp only [List.length_cons] at hmid1 hmid2 ⊢
    omega

/-- Reading the box off a node. -/
theorem b_box_mk (litem ritem : BvhItem) (bb : Aabb) : (Bvh.mk litem ritem bb).b_box = bb :=
  rfl

/-- Reading the left child off a node. -/
theorem left_mk (litem ritem : BvhItem) (bb : Aabb) : (Bvh.mk litem ritem bb).left = litem :=
  rfl

/-- Reading the right child off a node. -/
theorem right_mk (litem ritem : BvhItem) (bb : Aabb) : (Bvh.mk litem ritem bb).right = ritem :=
  rfl

/-- Candidates of a node. -/
theorem cands_mk (litem ritem : BvhItem) (bb : Aabb) :
    (Bvh.mk litem ritem bb).cands = litem.itemCands ++ ritem.itemCands := by
  simp only [Bvh.cands]

/-- Candidates below an inner node. -/
theorem itemCands_node (b : Bvh) : (BvhItem.node b).itemCands = b.cands := by
  simp only [BvhItem.itemCands]

/-- Candidates below a leaf. -/
theorem itemCands_leaf (p : Prim) : (BvhItem.leaf p).itemCands = p.cands := by
  simp only [BvhItem.itemCands]

/-- Candidates below the empty marker. -/
theorem itemCands_none : (BvhItem.none).itemCands = [] := by
  simp only [BvhItem.itemCands]

/-- Unfolding the shape predicate at a node. -/
theorem shapeOk_mk (litem ritem : BvhItem) (bb : Aabb) :
    (Bvh.mk litem ritem bb).shapeOk ↔
      ((∃ p, litem = .leaf p ∧ ritem = .none ∧ bb = p.bBox) ∨
        (litem ≠ .none ∧ ritem ≠ .none ∧ bb = litem.boxOf.combine ritem.boxOf)) ∧
      litem.itemShapeOk ∧ ritem.itemShapeOk := by
  simp only [Bvh.shapeOk]

/-- Unfolding the box predicate at a node. -/
theorem nodeBoxesOk_mk (litem ritem : BvhItem) (bb : Aabb) :
    (Bvh.mk litem ritem bb).nodeBoxesOk ↔
      bb = litem.boxOf.combine ritem.boxOf ∧ litem.itemBoxesOk ∧ ritem.itemBoxesOk := by
  simp only [Bvh.nodeBoxesOk]

/-- `new_bvh` on a singleton list. -/
theorem new_bvh_singleton (p : Prim) : new_bvh [p] = Bvh.mk (.leaf p) .none p.bBox :=
  rfl

/-- `new_bvh` on a two-element list. -/
theorem new_bvh_pair (p q : Prim) :
    new_bvh [p, q] = Bvh.mk (.leaf p) (.leaf q) (p.bBox.combine q.bBox) :=
  rfl

/-- One unfolding of `new_bvh` on a list of three or more primitives:
sort along the most spread axis, split at the midpoint, recurse on both
halves, and combine the two boxes. -/
theorem new_bvh_cons3 (p q r : Prim) (rest : List Prim) :
    new_bvh (p :: q :: r :: rest) =
      Bvh.mk
        (.node (new_bvh ((sort_hittables_slice_by_most_spread_axis (p :: q :: r :: rest)).1.take
          (sort_hittables_slice_by_most_spread_axis (p :: q :: r :: rest)).2)))
        (.node (new_bvh ((sort_hittables_slice_by_most_spread_axis (p :: q :: r :: rest)).1.drop
          (sort_hittables_slice_by_most_spread_axis (p :: q :: r :: rest)).2)))
        ((new_bvh ((sort_hittables_slice_by_most_spread_axis (p :: q :: r :: rest)).1.take
            (sort_hittables_slice_by_most_spread_axis (p :: q :: r :: rest)).2)).b_box.combine
          ((new_bvh ((sort_hittables_slice_by_most_spread_axis (p :: q :: r :: rest)).1.drop
            (sort_hittables_slice_by_most_spread_axis (p :: q :: r :: rest)).2)).b_box)) := by
  obtain ⟨hperm, hslen, hmid⟩ := sortSpread_spec (p :: q :: r :: rest)
  obtain ⟨hmid1, hmid2⟩ := hmid (by simp only [List.length_cons]; omega)
  unfold new_bvh
  simp only [List.length_cons]
  simp only [new_bvh_fuel]
  have htake : ((sort_hittables_slice_by_most_spread_axis (p :: q :: r :: rest)).1.take
      (sort_hittables_slice_by_most_spread_axis (p :: q :: r :: rest)).2).length ≤
        rest.length + 1 + 1 := by
    refine le_trans (List.length_take_le _ _) ?_
    simp only [List.length_cons] at hmid2
    omega
  have hdrop : ((sort_hittables_slice_by_most_spread_axis (p :: q :: r :: rest)).1.drop
      (sort_hittables_slice_by_most_spread_axis (p :: q :: r :: rest)).2).length ≤
        rest.length + 1 + 1 := by
    rw [List.length_drop, hslen]
    simp only [List.length_cons] at hmid1 ⊢
    omega
  rw [new_bvh_fuel_congr (rest.length + 1 + 1) _ _ htake le_rfl,
    new_bvh_fuel_congr (rest.length + 1 + 1) _ _ hdrop le_rfl]

/-- Structural properties of the built tree: the root box is the union
of all primitive boxes, the tree's candidates are a permutation of the
input's candidates, and every node satisfies the child-shape and
child-box predicates. -/
theorem new_bvh_props : ∀ (l : List Prim), l ≠ [] →
    (new_bvh l).b_box = boxUnion l ∧
    (new_bvh l).cands.Perm (l.flatMap Prim.cands) ∧
    (new_bvh l).shapeOk ∧
    (new_bvh l).nodeBoxesOk
  | [], h => absurd rfl h
  | [p], _ => by
    rw [new_bvh_singleton]
    refine ⟨?_, ?_, ?_, ?_⟩
    · simp [Bvh.b_box, boxUnion, aabb_combine_default_left]
    · simp [Bvh.cands, BvhItem.itemCands]
    · simp only [Bvh.shapeOk, BvhItem.itemShapeOk]
      refine ⟨Or.inl ⟨p, ?_⟩, ?_, ?_⟩ <;> simp
    · simp only [Bvh.nodeBoxesOk, BvhItem.itemBoxesOk, BvhItem.boxOf]
      simp [aabb_combine_default_right]
  | [p, q], _ => by
    rw [new_bvh_pair]
    refine ⟨?_, ?_, ?_, ?_⟩
    · simp [Bvh.b_box, boxUnion, aabb_combine_default_left]
    · simp [Bvh.cands, BvhItem.itemCands]
    · simp only [Bvh.shapeOk, BvhItem.itemShapeOk]
      refine ⟨Or.inr ?_, ?_, ?_⟩ <;> simp [BvhItem.boxOf]
    · simp only [Bvh.nodeBoxesOk, BvhItem.itemBoxesOk, BvhItem.boxOf]
      simp
  | p :: q :: r :: rest, _ => by
    obtain ⟨hperm, hslen, hmid⟩ := sortSpread_spec (p :: q :: r :: rest)
    obtain ⟨hmid1, hmid2⟩ := hmid (by simp only [List.length_cons]; omega)
    have htne : (sort_hittables_slice_by_most_spread_axis (p :: q :: r :: rest)).1.take
        (sort_hittables_slice_by_most_spread_axis (p :: q :: r :: rest)).2 ≠ [] := by
      refine List.ne_nil_of_length_pos ?_
      rw [List.length_take, hslen]
      simp only [List.length_cons] at hmid1 hmid2 ⊢
      omega
    have hdne : (sort_hittables_slice_by_most_spread_axis (p :: q :: r :: rest)).1.drop
        (sort_hittables_slice_by_most_spread_axis (p :: q :: r :: rest)).2 ≠ [] := by
      refine List.ne_nil_of_length_pos ?_
      rw [List.length_drop, hslen]
      simp only [List.length_cons] at hmid1 hmid2 ⊢
      omega
    obtain ⟨ihLbox, ihLperm, ihLshape, ihLnodes⟩ := new_bvh_props _ htne
    obtain ⟨ihRbox, ihRperm, ihRshape, ihRnodes⟩ := new_bvh_props _ hdne
    rw [new_bvh_cons3]
    refine ⟨?_, ?_, ?_, ?_⟩
    · rw [b_box_mk, ihLbox, ihRbox, ← boxUnion_append, List.take_append_drop]
      exact boxUnion_perm hperm
    · rw [cands_mk, itemCands_node, itemCands_node]
      refine (ihLperm.append ihRperm).trans ?_
      rw [← List.flatMap_append, List.take_append_drop]
      exact hperm.flatMap_right Prim.cands
    · rw [shapeOk_mk]
      refine ⟨Or.inr ⟨by simp, by simp, rfl⟩, ?_, ?_⟩ <;>
        · simp only [BvhItem.itemShapeOk]
          assumption
    · rw [nodeBoxesOk_mk]
      refine ⟨rfl, ?_, ?_⟩ <;>
        · simp only [BvhItem.itemBoxesOk]
          assumption
termination_by l => l.length
decreasing_by
  · simp_wf
    rw [hslen]
    simp only [List.length_cons] at hmid1 hmid2 ⊢
    omega
  · simp_wf
    rw [hslen]
    simp only [List.length_cons] at hmid1 hmid2 ⊢
    omega

/-- C1 counterexample: `Bvh::new` applied to the empty list does not
fail — it returns the degenerate tree with two empty children and the
default box.  The function's type has no error outcome at all, so the
claimed caller-visible error for the empty input does not exist in the
code. -/
theorem c1_counterexample_empty_input :
    Bvh.new [] = Bvh.mk BvhItem.none BvhItem.none Aabb.default :=
  rfl

/-- C1 amended: `Bvh::new` never fails.  The empty input yields a
degenerate node with two empty children and the default (empty)
bounding box, and every non-empty input yields the tree built by
`new_bvh`. -/
theorem c1_bvh_new_never_fails (list : List Prim) :
    (list = [] → Bvh.new list = Bvh.mk BvhItem.none BvhItem.none Aabb.default) ∧
    (list ≠ [] → Bvh.new list = new_bvh list) := by
  constructor
  · rintro rfl
    rfl
  · intro h
    unfold Bvh.new
    rw [if_neg (by simpa [List.isEmpty_iff] using h)]

/-- C1 witness: on a concrete one-element list, `Bvh::new` succeeds and
hands back the `new_bvh` tree. -/
theorem c1_witness :
    Bvh.new [⟨⟨⟨fq 0, fq 1⟩, ⟨fq 0, fq 1⟩, ⟨fq 0, fq 1⟩⟩, []⟩] =
      new_bvh [⟨⟨⟨fq 0, fq 1⟩, ⟨fq 0, fq 1⟩, ⟨fq 0, fq 1⟩⟩, []⟩] :=
  (c1_bvh_new_never_fails _).2 (by simp)

/-- C4: for every non-empty input, the root box of the built BVH is the
per-axis min-of-mins/max-of-maxes union of all input boxes, the root
box is unchanged by any permutation of the input list, and every node's
box combines its children's boxes (the empty child slot contributing
the neutral empty box). -/
theorem c4_root_box_is_union (l : List Prim) (hne : l ≠ []) :
    (new_bvh l).b_box = specUnionBox l ∧
    (∀ l2, l.Perm l2 → (new_bvh l).b_box = (new_bvh l2).b_box) ∧
    (new_bvh l).nodeBoxesOk := by
  obtain ⟨hbox, -, -, hnodes⟩ := new_bvh_props l hne
  refine ⟨by rw [hbox, boxUnion_eq_specUnion], ?_, hnodes⟩
  intro l2 hp
  have hne2 : l2 ≠ [] := by
    intro h
    subst h
    exact hne hp.eq_nil
  obtain ⟨hbox2, -, -, -⟩ := new_bvh_props l2 hne2
  rw [hbox, hbox2]
  exact boxUnion_perm hp

/-- C4 witness: the root box of a two-primitive build equals the spec's
union of the two boxes. -/
theorem c4_witness :
    (new_bvh [⟨⟨⟨fq 0, fq 1⟩, ⟨fq 0, fq 1⟩, ⟨fq 0, fq 1⟩⟩, []⟩,
        ⟨⟨⟨fq (-1), fq 2⟩, ⟨fq 2, fq 3⟩, ⟨fq (-2), fq 0⟩⟩, []⟩]).b_box =
      specUnionBox [⟨⟨⟨fq 0, fq 1⟩, ⟨fq 0, fq 1⟩, ⟨fq 0, fq 1⟩⟩, []⟩,
        ⟨⟨⟨fq (-1), fq 2⟩, ⟨fq 2, fq 3⟩, ⟨fq (-2), fq 0⟩⟩, []⟩] :=
  (c4_root_box_is_union _ (by simp)).1

/-- C9 counterexample: a BVH built from a single primitive does not
hold a doubled leaf reference — the leaf sits on the left and the right
child slot is the empty marker, not a second copy of the leaf. -/
theorem c9_counterexample_single_not_doubled :
    (new_bvh [⟨⟨⟨fq 0, fq 1⟩, ⟨fq 0, fq 1⟩, ⟨fq 0, fq 1⟩⟩, []⟩]).left =
      BvhItem.leaf ⟨⟨⟨fq 0, fq 1⟩, ⟨fq 0, fq 1⟩, ⟨fq 0, fq 1⟩⟩, []⟩ ∧
    (new_bvh [⟨⟨⟨fq 0, fq 1⟩, ⟨fq 0, fq 1⟩, ⟨fq 0, fq 1⟩⟩, []⟩]).right = BvhItem.none ∧
    (new_bvh [⟨⟨⟨fq 0, fq 1⟩, ⟨fq 0, fq 1⟩, ⟨fq 0, fq 1⟩⟩, []⟩]).right ≠
      BvhItem.leaf ⟨⟨⟨fq 0, fq 1⟩, ⟨fq 0, fq 1⟩, ⟨fq 0, fq 1⟩⟩, []⟩ := by
  refine ⟨rfl, rfl, ?_⟩
  rw [new_bvh_singleton, right_mk]
  simp

/-- C9 amended: every node of the built tree has two child slots; a
single-primitive subtree is a node with the leaf on the left, the empty
marker on the right and the leaf's own box, and every other node has
both slots populated and the combined box. -/
theorem c9_single_primitive_node_shape (l : List Prim) (hne : l ≠ []) :
    (new_bvh l).shapeOk :=
  (new_bvh_props l hne).2.2.1

/-- C9 witness: the shape predicate at a concrete singleton build. -/
theorem c9_witness :
    (new_bvh [⟨⟨⟨fq 0, fq 1⟩, ⟨fq 0, fq 1⟩, ⟨fq 0, fq 1⟩⟩, []⟩]).shapeOk :=
  c9_single_primitive_node_shape _ (by simp)

/-- Membership form of `Interval::contains`. -/
theorem contains_iff (i : Interval) (x : F) : i.contains x = true ↔ i.min ≤ x ∧ x ≤ i.max := by
  simp [Interval.contains]

/-- Unfolding the nearest-candidate predicate at a miss. -/
theorem isMinIn_none_iff (I : Interval) (cs : List F) :
    isMinIn I cs Option.none ↔ ∀ t ∈ cs, I.contains t = false := by
  simp only [isMinIn]

/-- Unfolding the nearest-candidate predicate at a hit. -/
theorem isMinIn_some_iff (I : Interval) (cs : List F) (m : F) :
    isMinIn I cs (Option.some m) ↔
      m ∈ cs ∧ I.contains m = true ∧ ∀ u ∈ cs, I.contains u = true → m ≤ u := by
  simp only [isMinIn]

/-- The nearest candidate inside an interval satisfies its contract. -/
theorem minInInterval_spec (I : Interval) : ∀ (cs : List F), isMinIn I cs (minInInterval I cs)
  | [] => by simp [minInInterval, isMinIn_none_iff]
  | t :: ts => by
    have ih := minInInterval_spec I ts
    by_cases h : I.contains t = true
    · cases hrest : minInInterval I ts with
      | none =>
        rw [hrest, isMinIn_none_iff] at ih
        simp only [minInInterval, h, if_true, hrest]
        rw [isMinIn_some_iff]
        refine ⟨List.mem_cons_self t ts, h, ?_⟩
        intro u hu hcu
        rcases List.mem_cons.1 hu with rfl | hu
        · exact le_refl u
        · exact absurd hcu (by simp [ih u hu])
      | some m =>
        rw [hrest, isMinIn_some_iff] at ih
        obtain ⟨hmmem, hmcont, hmmin⟩ := ih
        simp only [minInInterval, h, if_true, hrest]
        rw [isMinIn_some_iff]
        refine ⟨?_, ?_, ?_⟩
        · rcases min_choice t m with hc | hc <;> rw [hc]
          · exact List.mem_cons_self t ts
          · exact List.mem_cons_of_mem t hmmem
        · rcases min_choice t m with hc | hc <;> rw [hc]
          · exact h
          · exact hmcont
        · intro u hu hcu
          rcases List.mem_cons.1 hu with rfl | hu
          · exact min_le_left _ _
          · exact le_trans (min_le_right _ _) (hmmin u hu hcu)
    · have hf : I.contains t = false := by
        revert h
        cases I.contains t <;> simp
      simp only [minInInterval, hf, Bool.false_eq_true, if_false]
      cases hrest : minInInterval I ts with
      | none =>
        rw [hrest, isMinIn_none_iff] at ih
        rw [isMinIn_none_iff]
        intro u hu
        rcases List.mem_cons.1 hu with rfl | hu
        · exact hf
        · exact ih u hu
      | some m =>
        rw [hrest, isMinIn_some_iff] at ih
        obtain ⟨hmmem, hmcont, hmmin⟩ := ih
        rw [isMinIn_some_iff]
        refine ⟨List.mem_cons_of_mem t hmmem, hmcont, ?_⟩
        intro u hu hcu
        rcases List.mem_cons.1 hu with rfl | hu
        · exact absurd hcu (by simp [hf])
        · exact hmmin u hu hcu

/-- The nearest candidate is unique. -/
theorem isMinIn_unique (I : Interval) (cs : List F) (o1 o2 : Option F)
    (h1 : isMinIn I cs o1) (h2 : isMinIn I cs o2) : o1 = o2 := by
  cases o1 with
  | none =>
    cases o2 with
    | none => rfl
    | some m =>
      rw [isMinIn_none_iff] at h1
      rw [isMinIn_some_iff] at h2
      exact absurd h2.2.1 (by simp [h1 m h2.1])
  | some m =>
    cases o2 with
    | none =>
      rw [isMinIn_some_iff] at h1
      rw [isMinIn_none_iff] at h2
      exact absurd h1.2.1 (by simp [h2 m h1.1])
    | some m2 =>
      rw [isMinIn_some_iff] at h1 h2
      exact congrArg Option.some
        (le_antisymm (h1.2.2 m2 h2.1 h2.2.1) (h2.2.2 m h1.1 h1.2.1))

/-- The nearest candidate only depends on the multiset of candidates. -/
theorem isMinIn_perm (I : Interval) {cs1 cs2 : List F} (hp : cs1.Perm cs2) (o : Option F)
    (h : isMinIn I cs1 o) : isMinIn I cs2 o := by
  cases o with
  | none =>
    rw [isMinIn_none_iff] at h ⊢
    intro t ht
    exact h t (hp.mem_iff.2 ht)
  | some m =>
    rw [isMinIn_some_iff] at h ⊢
    exact ⟨hp.mem_iff.1 h.1, h.2.1, fun u hu hcu => h.2.2 u (hp.mem_iff.2 hu) hcu⟩

/-- The loop of `HittableList::hit` finds the nearest candidate of the
primitives it has not yet visited, given that its accumulator already
holds the nearest candidate of the visited prefix and that the current
interval has been narrowed to it. -/
theorem listHitGo_spec (I : Interval) :
    ∀ (rest processed : List Prim) (cur : Interval) (acc : Option F),
      cur.min = I.min →
      (acc = Option.none → cur = I ∧ ∀ t ∈ processed.flatMap Prim.cands, I.contains t = false) →
      (∀ m, acc = Option.some m → cur.max = m ∧ m ∈ processed.flatMap Prim.cands ∧
        I.contains m = true ∧
        ∀ u ∈ processed.flatMap Prim.cands, I.contains u = true → m ≤ u) →
      isMinIn I ((processed ++ rest).flatMap Prim.cands) (listHitGo I.min rest cur acc)
  | [], processed, cur, acc, hmin, hnone, hsome => by
    simp only [listHitGo, List.append_nil]
    cases acc with
    | none =>
      rw [isMinIn_none_iff]
      exact (hnone rfl).2
    | some m =>
      rw [isMinIn_some_iff]
      obtain ⟨-, hmem, hcont, hminimal⟩ := hsome m rfl
      exact ⟨hmem, hcont, hminimal⟩
  | h :: t, processed, cur, acc, hmin, hnone, hsome => by
    have hspec : isMinIn cur h.cands (Prim.hit h cur) := minInInterval_spec cur h.cands
    have hflat : (processed ++ [h]).flatMap Prim.cands =
        processed.flatMap Prim.cands ++ h.cands := by
      rw [List.flatMap_append]
      simp
    have hIub : cur.max ≤ I.max ∨ cur = I := by
      cases hacc : acc with
      | none => exact Or.inr (hnone hacc).1
      | some m =>
        obtain ⟨hcm, -, hcont, -⟩ := hsome m hacc
        rw [contains_iff] at hcont
        exact Or.inl (hcm ▸ hcont.2)
    have hcurI : ∀ x : F, cur.contains x = true → I.contains x = true := by
      intro x hx
      rw [contains_iff] at hx ⊢
      rcases hIub with hub | rfl
      · exact ⟨hmin ▸ hx.1, le_trans hx.2 hub⟩
      · exact hx
    simp only [listHitGo]
    cases hres : Prim.hit h cur with
    | some r =>
      rw [hres] at hspec
      rw [isMinIn_some_iff] at hspec
      obtain ⟨hrmem, hrcont, hrmin⟩ := hspec
      have hrI : I.contains r = true := hcurI r hrcont
      have hnext := listHitGo_spec I t (processed ++ [h]) ⟨I.min, r⟩ (Option.some r)
        rfl
        (by intro hc; exact absurd hc (by simp))
        (by
          intro m hm
          rw [Option.some.injEq] at hm
          subst hm
          refine ⟨rfl, ?_, hrI, ?_⟩
          · rw [hflat]
            exact List.mem_append_right _ hrmem
          · intro u hu hcu
            rw [hflat] at hu
            rcases List.mem_append.1 hu with hu | hu
            · cases hacc : acc with
              | none => exact absurd hcu (by simp [(hnone hacc).2 u hu])
              | some m0 =>
                obtain ⟨hcm, -, -, hminimal⟩ := hsome m0 hacc
                have hrm0 : r ≤ m0 := by
                  rw [contains_iff] at hrcont
                  exact hcm ▸ hrcont.2
                exact le_trans hrm0 (hminimal u hu hcu)
            · by_cases hcuru : cur.contains u = true
              · exact hrmin u hu hcuru
              · have : cur.max < u := by
                  rw [contains_iff] at hcu
                  have hlow : cur.min ≤ u := hmin ▸ hcu.1
                  by_contra hnot
                  push_neg at hnot
                  exact hcuru (by rw [contains_iff]; exact ⟨hlow, hnot⟩)
                rw [contains_iff] at hrcont
                exact le_trans hrcont.2 (le_of_lt this))
      have hassoc : (processed ++ [h]) ++ t = processed ++ h :: t := by
        simp
      rw [hassoc] at hnext
      exact hnext
    | none =>
      rw [hres] at hspec
      rw [isMinIn_none_iff] at hspec
      have hnext := listHitGo_spec I t (processed ++ [h]) cur acc hmin
        (by
          intro hacc
          obtain ⟨hcI, hall⟩ := hnone hacc
          refine ⟨hcI, ?_⟩
          intro u hu
          rw [hflat] at hu
          rcases List.mem_append.1 hu with hu | hu
          · exact hall u hu
          · exact hcI ▸ hspec u hu)
        (by
          intro m hacc
          obtain ⟨hcm, hmem, hcont, hminimal⟩ := hsome m hacc
          refine ⟨hcm, ?_, hcont, ?_⟩
          · rw [hflat]
            exact List.mem_append_left _ hmem
          · intro u hu hcu
            rw [hflat] at hu
            rcases List.mem_append.1 hu with hu | hu
            · exact hminimal u hu hcu
            · have hcuru : cur.contains u = false := hspec u hu
              have hlow : cur.min ≤ u := by
                rw [contains_iff] at hcu
                exact hmin ▸ hcu.1
              have hgt : cur.max < u := by
                by_contra hnot
                push_neg at hnot
                have hc : cur.contains u = true := by
                  rw [contains_iff]
                  exact ⟨hlow, hnot⟩
                rw [hcuru] at hc
                exact Bool.false_ne_true hc
              exact hcm ▸ le_of_lt hgt)
      have hassoc : (processed ++ [h]) ++ t = processed ++ h :: t := by
        simp
      rw [hassoc] at hnext
      exact hnext

/-- `HittableList::hit` returns the nearest candidate of all its
primitives within the queried interval. -/
theorem listHit_isMinIn (l : List Prim) (I : Interval) :
    isMinIn I (l.flatMap Prim.cands) (HittableList.hit l I) := by
  have h := listHitGo_spec I l [] ⟨I.min, I.max⟩ Option.none rfl
    (by
      intro _
      refine ⟨?_, by simp⟩
      cases I
      rfl)
    (by
      intro m hm
      exact absurd hm (by simp))
  simpa using h

/-- Unfolding conservativeness at a node. -/
theorem conservative_mk (boxHit : Aabb → Bool) (I : Interval) (litem ritem : BvhItem)
    (bb : Aabb) :
    Bvh.conservative boxHit I (Bvh.mk litem ritem bb) ↔
      (boxHit bb = false → ∀ x ∈ litem.itemCands ++ ritem.itemCands, I.contains x = false) ∧
      BvhItem.itemConservative boxHit I litem ∧ BvhItem.itemConservative boxHit I ritem := by
  simp only [Bvh.conservative]

/-- Unfolding conservativeness below an inner node. -/
theorem itemConservative_node (boxHit : Aabb → Bool) (I : Interval) (b : Bvh) :
    BvhItem.itemConservative boxHit I (.node b) ↔ Bvh.conservative boxHit I b := by
  simp only [BvhItem.itemConservative]

/-- Unfolding `Bvh::hit` at a node. -/
theorem bvh_hit_mk (boxHit : Aabb → Bool) (litem ritem : BvhItem) (bb : Aabb) (J : Interval) :
    Bvh.hit boxHit (Bvh.mk litem ritem bb) J =
      if boxHit bb then
        match BvhItem.hit boxHit litem J with
        | Option.none => BvhItem.hit boxHit ritem J
        | Option.some left_rec =>
          match BvhItem.hit boxHit ritem ⟨J.min, left_rec⟩ with
          | Option.some right_rec => Option.some right_rec
          | Option.none => Option.some left_rec
      else Option.none := by
  simp only [Bvh.hit]

/-- `BvhItem::hit` at an inner node. -/
theorem item_hit_node (boxHit : Aabb → Bool) (b : Bvh) (J : Interval) :
    BvhItem.hit boxHit (.node b) J = Bvh.hit boxHit b J := by
  simp only [BvhItem.hit]

/-- `BvhItem::hit` at a leaf. -/
theorem item_hit_leaf (boxHit : Aabb → Bool) (p : Prim) (J : Interval) :
    BvhItem.hit boxHit (.leaf p) J = Prim.hit p J := by
  simp only [BvhItem.hit]

/-- `BvhItem::hit` at the empty marker. -/
theorem item_hit_none (boxHit : Aabb → Bool) (J : Interval) :
    BvhItem.hit boxHit BvhItem.none J = Option.none := by
  simp only [BvhItem.hit]

mutual

/-- `Bvh::hit` returns the nearest candidate of its subtree within the
queried interval, for every query interval whose lower bound is the
traversal's fixed lower bound and whose upper bound does not exceed the
bound the conservativeness hypothesis speaks about.  The box reject is
covered by conservativeness; the left query, the narrowing of the upper
bound to the left hit, the right query and the prefer-right return are
walked through case by case. -/
theorem bvh_hit_isMinIn (boxHit : Aabb → Bool) (I : Interval) :
    ∀ (b : Bvh), Bvh.conservative boxHit I b →
      ∀ (J : Interval), J.min = I.min → J.max ≤ I.max →
        isMinIn J b.cands (Bvh.hit boxHit b J)
  | .mk litem ritem bb, hc, J, hJmin, hJmax => by
    obtain ⟨hbox, hcl, hcr⟩ := (conservative_mk boxHit I litem ritem bb).1 hc
    rw [cands_mk, bvh_hit_mk]
    have hJI : ∀ x : F, J.contains x = true → I.contains x = true := by
      intro x hx
      rw [contains_iff] at hx ⊢
      exact ⟨hJmin ▸ hx.1, le_trans hx.2 hJmax⟩
    by_cases hb : boxHit bb
    · rw [if_pos hb]
      have hL := bvhItem_hit_isMinIn boxHit I litem hcl J hJmin hJmax
      cases hLres : BvhItem.hit boxHit litem J with
      | none =>
        rw [hLres, isMinIn_none_iff] at hL
        dsimp only
        have hR := bvhItem_hit_isMinIn boxHit I ritem hcr J hJmin hJmax
        cases hRres : BvhItem.hit boxHit ritem J with
        | none =>
          rw [hRres, isMinIn_none_iff] at hR
          rw [isMinIn_none_iff]
          intro x hx
          rcases List.mem_append.1 hx with hx | hx
          · exact hL x hx
          · exact hR x hx
        | some m =>
          rw [hRres, isMinIn_some_iff] at hR
          obtain ⟨hmem, hcont, hminimal⟩ := hR
          rw [isMinIn_some_iff]
          refine ⟨List.mem_append_right _ hmem, hcont, ?_⟩
          intro u hu hcu
          rcases List.mem_append.1 hu with hu | hu
          · exact absurd hcu (by simp [hL u hu])
          · exact hminimal u hu hcu
      | some tL =>
        rw [hLres, isMinIn_some_iff] at hL
        obtain ⟨hLmem, hLcont, hLmin⟩ := hL
        have htLJ : tL ≤ J.max := by
          rw [contains_iff] at hLcont
          exact hLcont.2
        have hR := bvhItem_hit_isMinIn boxHit I ritem hcr ⟨J.min, tL⟩ hJmin
          (le_trans htLJ hJmax)
        dsimp only
        cases hRres : BvhItem.hit boxHit ritem ⟨J.min, tL⟩ with
        | some tR =>
          rw [hRres, isMinIn_some_iff] at hR
          dsimp only
          obtain ⟨hRmem, hRcont, hRmin⟩ := hR
          have htRtL : tR ≤ tL := by
            rw [contains_iff] at hRcont
            exact hRcont.2
          rw [isMinIn_some_iff]
          refine ⟨List.mem_append_right _ hRmem, ?_, ?_⟩
          · rw [contains_iff] at hRcont ⊢
            exact ⟨hRcont.1, le_trans htRtL htLJ⟩
          · intro u hu hcu
            rcases List.mem_append.1 hu with hu | hu
            · exact le_trans htRtL (hLmin u hu hcu)
            · by_cases hule : u ≤ tL
              · refine hRmin u hu ?_
                rw [contains_iff] at hcu ⊢
                exact ⟨hcu.1, hule⟩
              · push_neg at hule
                exact le_trans htRtL (le_of_lt hule)
        | none =>
          rw [hRres, isMinIn_none_iff] at hR
          dsimp only
          rw [isMinIn_some_iff]
          refine ⟨List.mem_append_left _ hLmem, hLcont, ?_⟩
          intro u hu hcu
          rcases List.mem_append.1 hu with hu | hu
          · exact hLmin u hu hcu
          · by_cases hule : u ≤ tL
            · exfalso
              have hcu2 : (⟨J.min, tL⟩ : Interval).contains u = true := by
                rw [contains_iff]
                rw [contains_iff] at hcu
                exact ⟨hcu.1, hule⟩
              rw [hR u hu] at hcu2
              exact Bool.false_ne_true hcu2
            · push_neg at hule
              exact le_of_lt hule
    · rw [if_neg hb]
      have hbf : boxHit bb = false := by
        revert hb
        cases boxHit bb <;> simp
      rw [isMinIn_none_iff]
      intro x hx
      have hIx := hbox hbf x hx
      cases hJx : J.contains x with
      | false => rfl
      | true => exact absurd (hJI x hJx) (by simp [hIx])

/-- `BvhItem::hit` below a child slot is the nearest candidate. -/
theorem bvhItem_hit_isMinIn (boxHit : Aabb → Bool) (I : Interval) :
    ∀ (it : BvhItem), BvhItem.itemConservative boxHit I it →
      ∀ (J : Interval), J.min = I.min → J.max ≤ I.max →
        isMinIn J it.itemCands (BvhItem.hit boxHit it J)
  | .node b, hc, J, h1, h2 => by
    rw [itemCands_node, item_hit_node]
    exact bvh_hit_isMinIn boxHit I b ((itemConservative_node boxHit I b).1 hc) J h1 h2
  | .leaf p, _, J, _, _ => by
    rw [itemCands_leaf, item_hit_leaf]
    exact minInInterval_spec J p.cands
  | .none, _, J, _, _ => by
    rw [itemCands_none, item_hit_none, isMinIn_none_iff]
    intro x hx
    exact absurd hx (List.not_mem_nil x)

end

mutual

/-- With a box test that always passes, every tree is conservative. -/
theorem conservative_of_true (I : Interval) :
    ∀ (b : Bvh), Bvh.conservative (fun _ => true) I b
  | .mk litem ritem bb => by
    rw [conservative_mk]
    refine ⟨?_, itemConservative_of_true I litem, itemConservative_of_true I ritem⟩
    intro h
    simp at h

/-- Child-slot form of the previous lemma. -/
theorem itemConservative_of_true (I : Interval) :
    ∀ (it : BvhItem), BvhItem.itemConservative (fun _ => true) I it
  | .node b => by
    rw [itemConservative_node]
    exact conservative_of_true I b
  | .leaf p => by
    simp [BvhItem.itemConservative]
  | .none => by
    simp [BvhItem.itemConservative]

end

/-- C3: for every ray (modeled by its per-primitive candidate
distances and box test), every query interval, and every non-empty
primitive list whose built tree satisfies the bounding-box
conservativeness invariant, intersecting the ray against the built BVH
— which tests the node box, queries the left child, narrows the
interval's upper bound to the left hit's distance before querying the
right child, and returns the right hit when one exists, else the left
one — produces exactly the same nearest hit distance as the flat
`HittableList` linear scan over the same primitives and interval. -/
theorem c3_bvh_hit_equals_list_hit (boxHit : Aabb → Bool) (l : List Prim) (hne : l ≠ [])
    (I : Interval) (hcons : Bvh.conservative boxHit I (new_bvh l)) :
    Bvh.hit boxHit (new_bvh l) I = HittableList.hit l I := by
  have htree := bvh_hit_isMinIn boxHit I (new_bvh l) hcons I rfl le_rfl
  have hperm := (new_bvh_props l hne).2.1
  have hlist := listHit_isMinIn l I
  exact isMinIn_unique I (l.flatMap Prim.cands) _ _ (isMinIn_perm I hperm _ htree) hlist

/-- C3 witness: a concrete two-primitive scene with an always-passing
box test — the BVH traversal and the flat scan agree. -/
theorem c3_witness :
    Bvh.hit (fun _ => true)
      (new_bvh [⟨⟨⟨fq 0, fq 1⟩, ⟨fq 0, fq 1⟩, ⟨fq 0, fq 1⟩⟩, [fq 5, fq 2]⟩,
        ⟨⟨⟨fq 0, fq 1⟩, ⟨fq 0, fq 1⟩, ⟨fq 0, fq 1⟩⟩, [fq 3]⟩]) ⟨fq 0, fq 10⟩ =
    HittableList.hit [⟨⟨⟨fq 0, fq 1⟩, ⟨fq 0, fq 1⟩, ⟨fq 0, fq 1⟩⟩, [fq 5, fq 2]⟩,
        ⟨⟨⟨fq 0, fq 1⟩, ⟨fq 0, fq 1⟩, ⟨fq 0, fq 1⟩⟩, [fq 3]⟩] ⟨fq 0, fq 10⟩ :=
  c3_bvh_hit_equals_list_hit (fun _ => true) _ (by simp) _ (conservative_of_true _ _)

end BvhM

/-- C10 witness: a single finite light density yields a finite
container value, and the degenerate empty slice yields NaN. -/
theorem c10_witness :
    FModel.containerPdfValueF [] (0, 0, 0) (0, 0, 0) = FModel.FVal.nan ∧
    ∃ q, FModel.containerPdfValueF [⟨fun _ _ => FModel.FVal.val 1⟩] (0, 0, 0) (0, 0, 0) =
      FModel.FVal.val q :=
  ⟨c10_container_pdf_division.1 (0, 0, 0) (0, 0, 0),
    c10_container_pdf_division.2.1 [⟨fun _ _ => FModel.FVal.val 1⟩] (0, 0, 0) (0, 0, 0)
      (by simp) (by intro l hl; simp at hl; subst hl; exact ⟨1, rfl⟩)⟩

namespace SphereM

/-- C6: for every sphere, every ray with a nonzero direction and every
query interval, `Sphere::hit` returns a miss when the discriminant is
negative; otherwise the first root tried is the nearer one, it is
returned when the (closed) interval contains it, the farther root is
returned when the nearer one is outside but the farther one inside,
and a miss results when both are outside.  When the ray is exactly
tangent (discriminant zero) the two roots coincide, so exactly one hit
at that single root is produced. -/
theorem c6_sphere_hit_root_selection (s : Sphere) (r : Ray) (I : IntervalR)
    (ha : 0 < r.direction.lengthSquared) :
    (sphere_discriminant s r < 0 → s.hit r I = Option.none) ∧
    (0 ≤ sphere_discriminant s r → sphere_root1 s r ≤ sphere_root2 s r) ∧
    (sphere_discriminant s r = 0 → sphere_root1 s r = sphere_root2 s r) ∧
    (0 ≤ sphere_discriminant s r → I.contains (sphere_root1 s r) →
      ∃ h, s.hit r I = Option.some h ∧ h.ray_length = sphere_root1 s r) ∧
    (0 ≤ sphere_discriminant s r → ¬ I.contains (sphere_root1 s r) →
      I.contains (sphere_root2 s r) →
      ∃ h, s.hit r I = Option.some h ∧ h.ray_length = sphere_root2 s r) ∧
    (0 ≤ sphere_discriminant s r → ¬ I.contains (sphere_root1 s r) →
      ¬ I.contains (sphere_root2 s r) → s.hit r I = Option.none) := by
  have ha' : 0 < sphere_a r := ha
  refine ⟨?_, ?_, ?_, ?_, ?_, ?_⟩
  · intro h
    simp only [Sphere.hit]
    rw [if_pos h]
  · intro h
    have hs := Real.sqrt_nonneg (sphere_discriminant s r)
    unfold sphere_root1 sphere_root2
    rw [div_le_div_iff_of_pos_right ha']
    linarith
  · intro h
    unfold sphere_root1 sphere_root2
    rw [h, Real.sqrt_zero]
    ring
  · intro h0 hc1
    simp only [Sphere.hit]
    rw [if_neg (not_lt.2 h0), if_pos hc1]
    exact ⟨_, rfl, rfl⟩
  · intro h0 hc1 hc2
    simp only [Sphere.hit]
    rw [if_neg (not_lt.2 h0), if_neg hc1, if_pos hc2]
    exact ⟨_, rfl, rfl⟩
  · intro h0 hc1 hc2
    simp only [Sphere.hit]
    rw [if_neg (not_lt.2 h0), if_neg hc1, if_neg hc2]

/-- C6 witness: a concrete ray exactly tangent to the unit sphere —
the discriminant is zero, the two roots coincide at distance `2`, and
exactly one hit at that distance is produced. -/
theorem c6_witness :
    sphere_discriminant ⟨⟨0, 0, 0⟩, 1⟩ (Ray.new ⟨1, 0, -2⟩ ⟨0, 0, 1⟩) = 0 ∧
    sphere_root1 ⟨⟨0, 0, 0⟩, 1⟩ (Ray.new ⟨1, 0, -2⟩ ⟨0, 0, 1⟩) =
      sphere_root2 ⟨⟨0, 0, 0⟩, 1⟩ (Ray.new ⟨1, 0, -2⟩ ⟨0, 0, 1⟩) ∧
    (Sphere.hit ⟨⟨0, 0, 0⟩, 1⟩ (Ray.new ⟨1, 0, -2⟩ ⟨0, 0, 1⟩)
        ⟨((0 : ℝ) : EReal), ((10 : ℝ) : EReal)⟩).map HitRecord.ray_length = Option.some 2 := by
  have hD : sphere_discriminant ⟨⟨0, 0, 0⟩, 1⟩ (Ray.new ⟨1, 0, -2⟩ ⟨0, 0, 1⟩) = 0 := by
    norm_num [sphere_discriminant, sphere_half_b, sphere_a, sphere_c, sphere_oc,
      Vec3.dot, Vec3.lengthSquared, Vec3.sub, Ray.new]
  have hroot : sphere_root1 ⟨⟨0, 0, 0⟩, 1⟩ (Ray.new ⟨1, 0, -2⟩ ⟨0, 0, 1⟩) = 2 := by
    rw [sphere_root1, hD, Real.sqrt_zero]
    norm_num [sphere_half_b, sphere_a, sphere_oc, Vec3.dot, Vec3.lengthSquared, Vec3.sub,
      Ray.new]
  have hmain := c6_sphere_hit_root_selection ⟨⟨0, 0, 0⟩, 1⟩ (Ray.new ⟨1, 0, -2⟩ ⟨0, 0, 1⟩)
    ⟨((0 : ℝ) : EReal), ((10 : ℝ) : EReal)⟩
    (by norm_num [Ray.new, Vec3.lengthSquared])
  obtain ⟨-, -, heq, h4, -, -⟩ := hmain
  refine ⟨hD, heq hD, ?_⟩
  obtain ⟨rec, hrec, hlen⟩ := h4 (ge_of_eq hD)
    (by
      rw [hroot]
      show ((0 : ℝ) : EReal) ≤ ((2 : ℝ) : EReal) ∧ ((2 : ℝ) : EReal) ≤ ((10 : ℝ) : EReal)
      refine ⟨?_, ?_⟩
      · exact EReal.coe_le_coe_iff.mpr (by norm_num)
      · exact EReal.coe_le_coe_iff.mpr (by norm_num))
  rw [hrec]
  simp [hlen, hroot]

end SphereM
